import Mathlib

/-!
# Verification of the `tamp-rs` bindings against their specification

This development is a shallow embedding of the `tamp` Rust bindings
(`src/tamp/src/lib.rs`, `compressor.rs`, `decompressor.rs`) together with a
model of the underlying C codec.  The C sources (`tamp/tamp/_c_src`, pulled in
by `tamp-sys/build.rs`) are not part of this repository's `src/` tree, so the
engine itself — bit packing, window, match search, the compressor and
decompressor state machines, the header codec and the dictionary
initializer — is modelled from the specification; every such definition
carries a doc comment starting with `Modelled from the spec:`.  The Rust-level
code (configuration builders, constructors, wrappers translating the C result
codes into `Result`) is translated directly from the source.
-/

namespace Tamp

/-- Errors of the binding, translated from `enum Error` in `src/tamp/src/lib.rs`.
`InvalidConfig` carries the `&'static str` reason. -/
inductive Error where
  | OutputFull : Error
  | InputExhausted : Error
  | InvalidConfig : String → Error
  | ExcessBits : Error
  | BufferTooSmall : Error
deriving DecidableEq, Repr

/-- Result codes of the C library (`tamp_res`), as referenced by
`Error::from_tamp_res`.  `other` stands for any unknown code. -/
inductive TampRes where
  | ok : TampRes
  | outputFull : TampRes
  | inputExhausted : TampRes
  | excessBits : TampRes
  | invalidConf : TampRes
  | other : TampRes
deriving DecidableEq, Repr

/-- Translated from `Error::from_tamp_res` in `src/tamp/src/lib.rs`. -/
def fromTampRes : TampRes → Except Error Unit
  | .ok => .ok ()
  | .outputFull => .error .OutputFull
  | .inputExhausted => .error .InputExhausted
  | .excessBits => .error .ExcessBits
  | .invalidConf => .error (.InvalidConfig "Invalid parameters")
  | .other => .error (.InvalidConfig "Unknown error")

/-- The codec parameters every engine-level function depends on:
`wb` is `window_bits`, `lb` is `literal_bits`. -/
structure Params where
  wb : Nat
  lb : Nat
deriving DecidableEq, Repr

/-- Valid parameter ranges per the spec (§3): `window_bits ∈ [8,15]`,
`literal_bits ∈ [5,8]`. -/
def Params.valid (p : Params) : Prop :=
  8 ≤ p.wb ∧ p.wb ≤ 15 ∧ 5 ≤ p.lb ∧ p.lb ≤ 8

instance (p : Params) : Decidable p.valid := by
  unfold Params.valid; infer_instance

/-- Window size in bytes, `2 ^ window_bits`. -/
def Params.ws (p : Params) : Nat := 2 ^ p.wb

theorem Params.ws_pos (p : Params) : 0 < p.ws := Nat.pos_pow_of_pos _ (by omega)

/-! ### Bit packing

Modelled from the spec (§4.1, §6.1): all codes are written MSB-first; the
C BitIO reader/writer is not in `src/`. -/

/-- Modelled from the spec: MSB-first bit image of the low `w` bits of `n`
(§6.1 "All codes are emitted MSB-first"). -/
def bitsOfNat : Nat → Nat → List Bool
  | 0, _ => []
  | w + 1, n => n.testBit w :: bitsOfNat w n

/-- Modelled from the spec: MSB-first reassembly of a bit string into a
number (the BitIO reader's `peek`/`consume` of a fixed-width code). -/
def natOfBits (bs : List Bool) : Nat :=
  bs.foldl (fun a b => 2 * a + (if b then 1 else 0)) 0

@[simp] theorem bitsOfNat_length (w n : Nat) : (bitsOfNat w n).length = w := by
  induction w generalizing n with
  | zero => rfl
  | succ k ih => simp [bitsOfNat, ih]

theorem natOfBits_aux (bs : List Bool) (a : Nat) :
    bs.foldl (fun a b => 2 * a + (if b then 1 else 0)) a =
      a * 2 ^ bs.length + natOfBits bs := by
  induction bs generalizing a with
  | nil => simp [natOfBits]
  | cons b rest ih =>
    simp only [List.foldl_cons, natOfBits, List.length_cons]
    rw [ih, ih (2 * 0 + (if b then 1 else 0))]
    cases b <;> simp <;> ring

theorem natOfBits_cons (b : Bool) (bs : List Bool) :
    natOfBits (b :: bs) = (if b then 1 else 0) * 2 ^ bs.length + natOfBits bs := by
  show bs.foldl _ _ = _
  rw [natOfBits_aux]
  cases b <;> simp

theorem natOfBits_lt (bs : List Bool) : natOfBits bs < 2 ^ bs.length := by
  induction bs with
  | nil => simp [natOfBits]
  | cons b rest ih =>
    rw [natOfBits_cons]
    simp only [List.length_cons, pow_succ]
    cases b <;> simp <;> omega

/-- Decoding after encoding: `natOfBits (bitsOfNat w n) = n % 2 ^ w`. -/
theorem natOfBits_bitsOfNat (w n : Nat) : natOfBits (bitsOfNat w n) = n % 2 ^ w := by
  induction w generalizing n with
  | zero => simp [bitsOfNat, natOfBits, Nat.mod_one]
  | succ k ih =>
    rw [bitsOfNat, natOfBits_cons, ih, bitsOfNat_length]
    have h1 : n % 2 ^ (k + 1) = n % 2 ^ k + 2 ^ k * (n / 2 ^ k % 2) := by
      rw [pow_succ, Nat.mod_mul]
    have h2 : n.testBit k = decide (n / 2 ^ k % 2 = 1) := Nat.testBit_to_div_mod
    have h3 : n / 2 ^ k % 2 = 0 ∨ n / 2 ^ k % 2 = 1 := Nat.mod_two_eq_zero_or_one _
    rcases h3 with h3 | h3 <;> simp [h2, h3, h1] <;> omega

/-- Bit strings of equal length with equal values are equal. -/
theorem natOfBits_injOn (bs cs : List Bool) (hlen : bs.length = cs.length)
    (h : natOfBits bs = natOfBits cs) : bs = cs := by
  induction bs generalizing cs with
  | nil => cases cs with
    | nil => rfl
    | cons c cs' => simp at hlen
  | cons b bs' ih =>
    cases cs with
    | nil => simp at hlen
    | cons c cs' =>
      simp only [List.length_cons, Nat.succ.injEq] at hlen
      rw [natOfBits_cons, natOfBits_cons, hlen] at h
      have hb := natOfBits_lt bs'
      have hc := natOfBits_lt cs'
      rw [hlen] at hb
      have hbc : b = c := by
        cases b <;> cases c <;> simp_all <;> omega
      subst hbc
      have : natOfBits bs' = natOfBits cs' := by cases b <;> simp_all
      rw [ih cs' hlen this]

/-- Encoding after decoding: `bitsOfNat` of `natOfBits` is the identity on
bit strings of the right length. -/
theorem bitsOfNat_natOfBits (bs : List Bool) :
    bitsOfNat bs.length (natOfBits bs) = bs := by
  apply natOfBits_injOn _ _ (by simp)
  rw [natOfBits_bitsOfNat, Nat.mod_eq_of_lt (natOfBits_lt bs)]

/-! ### Window and built-in dictionary

Modelled from the spec (§3, §4.2, §6.2): the Window is a byte array of
`window_size` bytes with a rolling write cursor.  We represent it as a total
function `Nat → Nat`; all accesses go through indices reduced mod `ws`. -/

/-- The sliding-history window, as a total function from index to byte. -/
def Window : Type := Nat → Nat

/-- Write one byte into the window at index `i`. -/
def wwrite (w : Window) (i b : Nat) : Window :=
  fun j => if j = i then b else w j

@[simp] theorem wwrite_same (w : Window) (i b : Nat) : wwrite w i b i = b := by
  simp [wwrite]

/-- Modelled from the spec (§6.2): the 17-entry dictionary table
`" \n\re\x00tiosanhrdluc"` as byte values. -/
def dictTable : List Nat :=
  [32, 10, 13, 101, 0, 116, 105, 111, 115, 97, 110, 104, 114, 100, 108, 117, 99]

/-- Modelled from the spec (§6.2): "a small deterministic mixing of `i`".
The exact hash of the reference C code is not in `src/`, so we fix one
concrete deterministic mixing. -/
def dictHash (i : Nat) : Nat := (i * 97 + 31) % 17

/-- Modelled from the spec (§6.2): the built-in dictionary initializer,
`window[i] = one_of(" \n\re\x00tiosanhrdluc", hash(i))`, as a window. -/
def builtinDictW : Window := fun i => dictTable.getD (dictHash i) 0

/-! ### Match copy and match search

Modelled from the spec (§4.2, §4.3, §6.1): offset `o` selects the byte at
position `(pos - 1 - o) mod window_size`; a match of length `L` copies
byte-by-byte, writing each copied byte back into the window at the advancing
cursor, so overlapping (RLE) copies repeat recently written bytes. -/

/-- Source index of a match read: `(pos - 1 - o) mod ws` (§6.1), written
with an additive `ws` so the subtraction cannot underflow when `o < ws`. -/
def srcIdx (p : Params) (pos o : Nat) : Nat := (pos % p.ws + p.ws - 1 - o) % p.ws

/-- Modelled from the spec (§4.5 "Match" decoding): copy `L` bytes from
offset `o`, byte-by-byte, writing each byte to the output and back into the
window; returns the produced bytes and the final window and cursor. -/
def mcopy (p : Params) (w : Window) (pos o : Nat) : Nat → List Nat × Window × Nat
  | 0 => ([], w, pos)
  | L + 1 =>
    let b := w (srcIdx p pos o)
    let w' := wwrite w (pos % p.ws) b
    let r := mcopy p w' ((pos + 1) % p.ws) o L
    (b :: r.1, r.2)

/-- Modelled from the spec (§4.3): the length of the longest prefix of `look`
that the window reproduces at offset `o`, under the same byte-by-byte
overlap semantics the decoder uses in `mcopy`. -/
def mlen (p : Params) (w : Window) (pos o : Nat) : List Nat → Nat
  | [] => 0
  | x :: xs =>
    let b := w (srcIdx p pos o)
    if x = b then 1 + mlen p (wwrite w (pos % p.ws) b) ((pos + 1) % p.ws) o xs
    else 0

/-- Modelled from the spec (§4.3): search all offsets in `[0, ws)` and keep
the longest match; on ties the smallest offset wins because only strictly
longer candidates replace the current best. -/
def bestMatch (p : Params) (w : Window) (pos : Nat) (look : List Nat) : Nat × Nat :=
  (List.range p.ws).foldl
    (fun acc o =>
      let l := mlen p w pos o look
      if acc.1 < l then (l, o) else acc)
    (0, 0)

theorem mlen_le_length (p : Params) (w : Window) (pos o : Nat) (look : List Nat) :
    mlen p w pos o look ≤ look.length := by
  induction look generalizing w pos with
  | nil => simp [mlen]
  | cons x xs ih =>
    rw [mlen]
    split
    · have := ih (wwrite w (pos % p.ws) (w (srcIdx p pos o))) ((pos + 1) % p.ws)
      simp only [List.length_cons]
      omega
    · simp

/-- Copying exactly `mlen` bytes reproduces the corresponding prefix of
`look`: the match search certifies the decoder's copy. -/
theorem mcopy_mlen (p : Params) (look : List Nat) :
    ∀ (w : Window) (pos o : Nat),
      (mcopy p w pos o (mlen p w pos o look)).1 = look.take (mlen p w pos o look) := by
  induction look with
  | nil => intro w pos o; simp [mlen, mcopy]
  | cons x xs ih =>
    intro w pos o
    rw [mlen]
    split
    · rename_i hx
      rw [Nat.add_comm 1, mcopy]
      simp only [List.take_succ_cons, List.cons.injEq]
      exact ⟨hx.symm, ih _ _ _⟩
    · simp [mcopy]

/-- Generic invariant lemma for `List.foldl`. -/
theorem foldl_invariant {α β : Type} (f : β → α → β) (P : β → Prop)
    (l : List α) (init : β) (hinit : P init)
    (hstep : ∀ b a, a ∈ l → P b → P (f b a)) : P (l.foldl f init) := by
  induction l generalizing init with
  | nil => exact hinit
  | cons x xs ih =>
    exact ih _ (hstep init x (by simp) hinit) (fun b a ha hb => hstep b a (by simp [ha]) hb)

/-- The best match found is a genuine match: its length is the match length
at its offset (or zero), and its offset is in range. -/
theorem bestMatch_spec (p : Params) (w : Window) (pos : Nat) (look : List Nat) :
    ((bestMatch p w pos look).1 = mlen p w pos (bestMatch p w pos look).2 look ∨
      (bestMatch p w pos look).1 = 0) ∧
    (bestMatch p w pos look).2 < p.ws := by
  unfold bestMatch
  apply foldl_invariant _
    (fun acc : Nat × Nat => (acc.1 = mlen p w pos acc.2 look ∨ acc.1 = 0) ∧ acc.2 < p.ws)
  · exact ⟨Or.inr rfl, p.ws_pos⟩
  · intro b a ha hb
    simp only
    split
    · exact ⟨Or.inl rfl, List.mem_range.mp ha⟩
    · exact hb

/-! ### Token framing

Modelled from the spec (§6.1): literal = prefix bit `0` + `literal_bits` bits;
match = prefix bit `1` + match-length code + `window_bits` bits of offset;
FlushMarker = a reserved match-length code that makes the decoder skip to the
next byte boundary.  The reference match-length prefix code lives in the C
source, which is not in `src/`; per §6.1 any prefix code whose symbol set is a
contiguous `[MIN_MATCH, MAX_MATCH]` range plus the FlushMarker works, so we
fix the 4-bit code: values `0..14` stand for lengths `2..16`, value `15` is
the FlushMarker. -/

/-- Modelled from the spec (§4.3): the smallest length at which a match
(1 + 4 + `window_bits` bits) is strictly cheaper than the same bytes as
literals (1 + `literal_bits` bits each). -/
def minMatch (p : Params) : Nat := (5 + p.wb) / (1 + p.lb) + 1

theorem minMatch_pos (p : Params) : 1 ≤ minMatch p :=
  Nat.succ_le_succ (Nat.zero_le _)

theorem minMatch_ge_two (p : Params) (hp : p.valid) : 2 ≤ minMatch p := by
  obtain ⟨h1, h2, h3, h4⟩ := hp
  unfold minMatch
  have : 1 ≤ (5 + p.wb) / (1 + p.lb) :=
    (Nat.one_le_div_iff (by omega)).mpr (by omega)
  omega

/-- Modelled from the spec (§6.1): literal token bits. -/
def encLit (p : Params) (b : Nat) : List Bool := false :: bitsOfNat p.lb b

/-- Modelled from the spec (§6.1): match token bits. -/
def encMatch (p : Params) (L o : Nat) : List Bool :=
  true :: (bitsOfNat 4 (L - 2) ++ bitsOfNat p.wb o)

/-- Modelled from the spec (§6.1): the FlushMarker token bits (reserved
match-length code 15). -/
def markerBits : List Bool := true :: bitsOfNat 4 15

/-- Modelled from the spec (§4.4): the token stream produced by the greedy
compressor body: at each step the micro-buffer holds the next
`min 16 remaining` bytes; the best match is emitted when it reaches
`minMatch`, otherwise one literal, which is fatal (`ExcessBits`) when the
byte does not fit in `literal_bits`.  Returns the emitted bits and the final
window and cursor. -/
def encBody (p : Params) (w : Window) (pos : Nat) (xs : List Nat) :
    Except Error (List Bool × Window × Nat) :=
  match hxs : xs with
  | [] => .ok ([], w, pos)
  | x :: rest =>
    let bm := bestMatch p w pos ((x :: rest).take 16)
    if hm : minMatch p ≤ bm.1 then
      match encBody p (mcopy p w pos bm.2 bm.1).2.1 (mcopy p w pos bm.2 bm.1).2.2
          ((x :: rest).drop bm.1) with
      | .error e => .error e
      | .ok r => .ok (encMatch p bm.1 bm.2 ++ r.1, r.2)
    else
      if 2 ^ p.lb ≤ x then .error .ExcessBits
      else
        match encBody p (wwrite w (pos % p.ws) x) ((pos + 1) % p.ws) rest with
        | .error e => .error e
        | .ok r => .ok (encLit p x ++ r.1, r.2)
termination_by xs.length
decreasing_by
  · subst hxs
    unfold bm at hm
    simp only [List.length_drop, List.length_cons]
    have := minMatch_pos p
    omega
  · subst hxs
    simp

/-- Result of a decoder run: the decoded bytes, the final window and cursor,
the unconsumed trailing bits (an incomplete token), and the bit position
after the last consumed bit. -/
structure DecRes where
  out : List Nat
  w : Window
  pos : Nat
  leftover : List Bool
  bitEnd : Nat

/-- Modelled from the spec (§4.5): the decompressor token loop.  `bitPos` is
the number of stream bits already consumed (the header byte excluded), used
to skip to the next byte boundary after a FlushMarker.  Stops, keeping the
unconsumed bits, when the remaining bits cannot complete a token. -/
def decMach (p : Params) (w : Window) (pos : Nat) (bits : List Bool) (bitPos : Nat) :
    DecRes :=
  match bits with
  | [] => ⟨[], w, pos, [], bitPos⟩
  | false :: rest =>
    if p.lb ≤ rest.length then
      let b := natOfBits (rest.take p.lb)
      let w' := wwrite w (pos % p.ws) b
      let r := decMach p w' ((pos + 1) % p.ws) (rest.drop p.lb) (bitPos + 1 + p.lb)
      ⟨b :: r.out, r.w, r.pos, r.leftover, r.bitEnd⟩
    else ⟨[], w, pos, false :: rest, bitPos⟩
  | true :: rest =>
    if 4 ≤ rest.length then
      let c := natOfBits (rest.take 4)
      if c = 15 then
        let pad := (8 - (bitPos + 5) % 8) % 8
        decMach p w pos ((rest.drop 4).drop pad) (bitPos + 5 + pad)
      else
        if p.wb ≤ (rest.drop 4).length then
          let o := natOfBits ((rest.drop 4).take p.wb)
          let m := mcopy p w pos o (c + 2)
          let r := decMach p m.2.1 m.2.2 ((rest.drop 4).drop p.wb) (bitPos + 5 + p.wb)
          ⟨m.1 ++ r.out, r.w, r.pos, r.leftover, r.bitEnd⟩
        else ⟨[], w, pos, true :: rest, bitPos⟩
    else ⟨[], w, pos, true :: rest, bitPos⟩
termination_by bits.length
decreasing_by
  · simp only [List.length_drop, List.length_cons]; omega
  · simp only [List.length_drop, List.length_cons]; omega
  · simp only [List.length_drop, List.length_cons]; omega

@[simp] theorem encLit_length (p : Params) (b : Nat) : (encLit p b).length = 1 + p.lb := by
  simp [encLit, Nat.add_comm]

@[simp] theorem encMatch_length (p : Params) (L o : Nat) :
    (encMatch p L o).length = 5 + p.wb := by
  simp [encMatch]; omega

@[simp] theorem markerBits_length : markerBits.length = 5 := by
  simp [markerBits]

theorem decMach_nil (p : Params) (w : Window) (pos bitPos : Nat) :
    decMach p w pos [] bitPos = ⟨[], w, pos, [], bitPos⟩ := by
  rw [decMach]

/-- One literal-decoding step of `decMach`. -/
theorem decMach_false (p : Params) (w : Window) (pos bitPos : Nat) (rest : List Bool)
    (h : p.lb ≤ rest.length) :
    decMach p w pos (false :: rest) bitPos =
      let b := natOfBits (rest.take p.lb)
      let r := decMach p (wwrite w (pos % p.ws) b) ((pos + 1) % p.ws)
        (rest.drop p.lb) (bitPos + 1 + p.lb)
      ⟨b :: r.out, r.w, r.pos, r.leftover, r.bitEnd⟩ := by
  rw [decMach]
  simp [h]

/-- One match-decoding step of `decMach`. -/
theorem decMach_true_match (p : Params) (w : Window) (pos bitPos : Nat) (rest : List Bool)
    (h4 : 4 ≤ rest.length) (hc : natOfBits (rest.take 4) ≠ 15)
    (ho : p.wb ≤ (rest.drop 4).length) :
    decMach p w pos (true :: rest) bitPos =
      let c := natOfBits (rest.take 4)
      let o := natOfBits ((rest.drop 4).take p.wb)
      let m := mcopy p w pos o (c + 2)
      let r := decMach p m.2.1 m.2.2 ((rest.drop 4).drop p.wb) (bitPos + 5 + p.wb)
      ⟨m.1 ++ r.out, r.w, r.pos, r.leftover, r.bitEnd⟩ := by
  rw [decMach]
  have ho' : p.wb ≤ rest.length - 4 := by simpa using ho
  simp [h4, hc, ho', List.length_drop]

/-- One FlushMarker-decoding step of `decMach`: skip to the byte boundary. -/
theorem decMach_true_flush (p : Params) (w : Window) (pos bitPos : Nat) (rest : List Bool)
    (h4 : 4 ≤ rest.length) (hc : natOfBits (rest.take 4) = 15) :
    decMach p w pos (true :: rest) bitPos =
      let pad := (8 - (bitPos + 5) % 8) % 8
      decMach p w pos ((rest.drop 4).drop pad) (bitPos + 5 + pad) := by
  rw [decMach]
  simp [h4, hc]

theorem encBody_nil (p : Params) (w : Window) (pos : Nat) :
    encBody p w pos [] = .ok ([], w, pos) := by
  rw [encBody]

/-- Facts about the best match chosen in the match branch of `encBody`. -/
theorem match_branch_facts (p : Params) (hp : p.valid) (w : Window) (pos x : Nat)
    (rest : List Nat)
    (hm : minMatch p ≤ (bestMatch p w pos ((x :: rest).take 16)).1) :
    2 ≤ (bestMatch p w pos ((x :: rest).take 16)).1 ∧
    (bestMatch p w pos ((x :: rest).take 16)).1 ≤ 16 ∧
    (bestMatch p w pos ((x :: rest).take 16)).2 < p.ws ∧
    (mcopy p w pos (bestMatch p w pos ((x :: rest).take 16)).2
        (bestMatch p w pos ((x :: rest).take 16)).1).1 =
      (x :: rest).take (bestMatch p w pos ((x :: rest).take 16)).1 := by
  obtain ⟨hor, hOlt⟩ := bestMatch_spec p w pos ((x :: rest).take 16)
  have hL2 : 2 ≤ (bestMatch p w pos ((x :: rest).take 16)).1 :=
    le_trans (minMatch_ge_two p hp) hm
  have hbm1 : (bestMatch p w pos ((x :: rest).take 16)).1 =
      mlen p w pos (bestMatch p w pos ((x :: rest).take 16)).2 ((x :: rest).take 16) :=
    hor.resolve_right (by omega)
  have hL16 : (bestMatch p w pos ((x :: rest).take 16)).1 ≤ 16 := by
    rw [hbm1]
    exact le_trans (mlen_le_length _ _ _ _ _) (by simp [List.length_take])
  refine ⟨hL2, hL16, hOlt, ?_⟩
  conv_lhs => rw [hbm1]
  rw [mcopy_mlen, ← hbm1, List.take_take, Nat.min_eq_left hL16]

/-- The central inversion lemma: decoding the bits `encBody` produced, from
the same window state, reproduces the input bytes exactly and leaves the
decoder in the matching state, for any continuation of the bit stream. -/
theorem dec_enc_aux (p : Params) (hp : p.valid) :
    ∀ (n : Nat) (xs : List Nat), xs.length ≤ n →
    ∀ (w : Window) (pos : Nat) (bits : List Bool) (w' : Window) (pos' : Nat),
      encBody p w pos xs = .ok (bits, w', pos') →
    ∀ (tail : List Bool) (bitPos : Nat),
      decMach p w pos (bits ++ tail) bitPos =
        ⟨xs ++ (decMach p w' pos' tail (bitPos + bits.length)).out,
         (decMach p w' pos' tail (bitPos + bits.length)).w,
         (decMach p w' pos' tail (bitPos + bits.length)).pos,
         (decMach p w' pos' tail (bitPos + bits.length)).leftover,
         (decMach p w' pos' tail (bitPos + bits.length)).bitEnd⟩ := by
  intro n
  induction n with
  | zero =>
    intro xs hlen w pos bits w' pos' henc tail bitPos
    have hxs : xs = [] := List.eq_nil_of_length_eq_zero (Nat.le_zero.mp hlen)
    subst hxs
    rw [encBody_nil] at henc
    simp only [Except.ok.injEq, Prod.mk.injEq] at henc
    obtain ⟨h1, h2, h3⟩ := henc
    subst h1; subst h2; subst h3
    simp
  | succ k ih =>
    intro xs hlen w pos bits w' pos' henc tail bitPos
    cases xs with
    | nil =>
      rw [encBody_nil] at henc
      simp only [Except.ok.injEq, Prod.mk.injEq] at henc
      obtain ⟨h1, h2, h3⟩ := henc
      subst h1; subst h2; subst h3
      simp
    | cons x rest =>
      rw [encBody] at henc
      split at henc
      · -- match token branch
        rename_i hm
        split at henc
        · exact absurd henc (by simp)
        · rename_i r heq
          obtain ⟨rbits, rw2, rp2⟩ := r
          simp only [Except.ok.injEq, Prod.mk.injEq] at henc
          obtain ⟨h1, h2, h3⟩ := henc
          subst h1; subst h2; subst h3
          obtain ⟨hL2, hL16, hOlt, hmc⟩ := match_branch_facts p hp w pos x rest hm
          -- abbreviations
          set bm := bestMatch p w pos ((x :: rest).take 16) with hbmdef
          -- normalize the bit offset on the right-hand side
          rw [show bitPos + (encMatch p bm.1 bm.2 ++ rbits).length
              = bitPos + 5 + p.wb + rbits.length by
            simp [encMatch_length]; omega]
          -- expose the token structure on the left-hand side
          rw [show (encMatch p bm.1 bm.2 ++ rbits) ++ tail
              = true :: ((bitsOfNat 4 (bm.1 - 2)) ++
                  ((bitsOfNat p.wb bm.2) ++ (rbits ++ tail))) by
            simp [encMatch, List.append_assoc]]
          have htake4 : ((bitsOfNat 4 (bm.1 - 2)) ++
              ((bitsOfNat p.wb bm.2) ++ (rbits ++ tail))).take 4 = bitsOfNat 4 (bm.1 - 2) :=
            List.take_left' (by simp)
          have hc15 : natOfBits (((bitsOfNat 4 (bm.1 - 2)) ++
              ((bitsOfNat p.wb bm.2) ++ (rbits ++ tail))).take 4) = bm.1 - 2 := by
            rw [htake4, natOfBits_bitsOfNat, Nat.mod_eq_of_lt (by omega)]
          have hdrop4 : ((bitsOfNat 4 (bm.1 - 2)) ++
              ((bitsOfNat p.wb bm.2) ++ (rbits ++ tail))).drop 4 =
              (bitsOfNat p.wb bm.2) ++ (rbits ++ tail) :=
            List.drop_left' (by simp)
          rw [decMach_true_match p w pos bitPos _ (by simp)
            (by rw [hc15]; omega) (by rw [hdrop4]; simp)]
          simp only [hc15, hdrop4]
          have htakewb : ((bitsOfNat p.wb bm.2) ++ (rbits ++ tail)).take p.wb
              = bitsOfNat p.wb bm.2 := List.take_left' (by simp)
          have hdropwb : ((bitsOfNat p.wb bm.2) ++ (rbits ++ tail)).drop p.wb
              = rbits ++ tail := List.drop_left' (by simp)
          have hoval : natOfBits (((bitsOfNat p.wb bm.2) ++ (rbits ++ tail)).take p.wb)
              = bm.2 := by
            rw [htakewb, natOfBits_bitsOfNat, Nat.mod_eq_of_lt]
            exact hOlt
          simp only [hoval, hdropwb, show bm.1 - 2 + 2 = bm.1 by omega]
          -- apply the induction hypothesis to the recursive call
          have hlen2 : ((x :: rest).drop bm.1).length ≤ k := by
            simp only [List.length_drop, List.length_cons] at *
            omega
          have ihres := ih ((x :: rest).drop bm.1) hlen2
            (mcopy p w pos bm.2 bm.1).2.1 (mcopy p w pos bm.2 bm.1).2.2
            rbits rw2 rp2 heq (tail) (bitPos + 5 + p.wb)
          rw [ihres]
          -- reassemble the output list
          simp only [hmc]
          rw [show (x :: rest).take bm.1 ++ ((x :: rest).drop bm.1 ++
              (decMach p rw2 rp2 tail (bitPos + 5 + p.wb + rbits.length)).out)
              = (x :: rest) ++
                (decMach p rw2 rp2 tail (bitPos + 5 + p.wb + rbits.length)).out by
            rw [← List.append_assoc, List.take_append_drop]]
      · -- literal branch
        rename_i hm
        split at henc
        · exact absurd henc (by simp)
        · rename_i hxlt
          split at henc
          · exact absurd henc (by simp)
          · rename_i r heq
            obtain ⟨rbits, rw2, rp2⟩ := r
            simp only [Except.ok.injEq, Prod.mk.injEq] at henc
            obtain ⟨h1, h2, h3⟩ := henc
            subst h1; subst h2; subst h3
            rw [show bitPos + (encLit p x ++ rbits).length
                = bitPos + 1 + p.lb + rbits.length by
              simp [encLit_length]; omega]
            rw [show (encLit p x ++ rbits) ++ tail
                = false :: ((bitsOfNat p.lb x) ++ (rbits ++ tail)) by
              simp [encLit, List.append_assoc]]
            rw [decMach_false p w pos bitPos _ (by simp)]
            have htakelb : ((bitsOfNat p.lb x) ++ (rbits ++ tail)).take p.lb
                = bitsOfNat p.lb x := List.take_left' (by simp)
            have hdroplb : ((bitsOfNat p.lb x) ++ (rbits ++ tail)).drop p.lb
                = rbits ++ tail := List.drop_left' (by simp)
            have hbval : natOfBits (((bitsOfNat p.lb x) ++ (rbits ++ tail)).take p.lb)
                = x := by
              rw [htakelb, natOfBits_bitsOfNat, Nat.mod_eq_of_lt (by omega)]
            simp only [hbval, hdroplb]
            have hlen2 : rest.length ≤ k := by
              simp only [List.length_cons] at hlen
              omega
            have ihres := ih rest hlen2
              (wwrite w (pos % p.ws) x) ((pos + 1) % p.ws)
              rbits rw2 rp2 heq (tail) (bitPos + 1 + p.lb)
            rw [ihres]
            simp

/-! ### Byte packing

Modelled from the spec (§4.1): the BitIO writer emits bytes in production
order, MSB-first within each byte. -/

/-- Group a bit stream into bytes, MSB-first (the BitIO writer's byte
stream; a trailing group of fewer than 8 bits would be the writer's
unflushed accumulator and is only produced after padding). -/
def bitsToBytes : List Bool → List Nat
  | [] => []
  | b :: rest => natOfBits ((b :: rest).take 8) :: bitsToBytes ((b :: rest).drop 8)
termination_by bits => bits.length
decreasing_by
  simp only [List.length_drop, List.length_cons]
  omega

/-- Unpack bytes into their bit stream, MSB-first (the BitIO reader). -/
def bytesToBits (bytes : List Nat) : List Bool :=
  (bytes.map (bitsOfNat 8)).join

@[simp] theorem bytesToBits_nil : bytesToBits [] = [] := rfl

@[simp] theorem bytesToBits_cons (b : Nat) (rest : List Nat) :
    bytesToBits (b :: rest) = bitsOfNat 8 b ++ bytesToBits rest := by
  simp [bytesToBits]

theorem bytesToBits_append (a b : List Nat) :
    bytesToBits (a ++ b) = bytesToBits a ++ bytesToBits b := by
  simp [bytesToBits]

@[simp] theorem bytesToBits_length (bytes : List Nat) :
    (bytesToBits bytes).length = 8 * bytes.length := by
  induction bytes with
  | nil => rfl
  | cons b rest ih => simp [ih]; omega

theorem bitsToBytes_cons8 (v : Nat) (hv : v < 256) (rest : List Bool) :
    bitsToBytes (bitsOfNat 8 v ++ rest) = v :: bitsToBytes rest := by
  have h8 : (bitsOfNat 8 v).length = 8 := bitsOfNat_length 8 v
  obtain ⟨b, tl, hm⟩ : ∃ b tl, bitsOfNat 8 v ++ rest = b :: tl := by
    cases hcons : bitsOfNat 8 v with
    | nil =>
      exfalso
      have := congrArg List.length hcons
      rw [h8] at this
      simp at this
    | cons c ctl => exact ⟨c, ctl ++ rest, by simp [hcons]⟩
  have h256 : (2 : Nat) ^ 8 = 256 := by norm_num
  rw [hm, bitsToBytes, ← hm, List.take_left' h8, List.drop_left' h8,
    natOfBits_bitsOfNat, h256, Nat.mod_eq_of_lt hv]

@[simp] theorem bitsToBytes_nil : bitsToBytes [] = [] := by
  rw [bitsToBytes]

theorem bytesToBits_bitsToBytes_aux :
    ∀ (n : Nat) (bits : List Bool), bits.length ≤ n → bits.length % 8 = 0 →
      bytesToBits (bitsToBytes bits) = bits := by
  intro n
  induction n with
  | zero =>
    intro bits hlen _
    have : bits = [] := List.eq_nil_of_length_eq_zero (Nat.le_zero.mp hlen)
    subst this
    simp
  | succ k ih =>
    intro bits hlen hmod
    match bits with
    | [] => simp
    | b :: rest =>
      have hlen8 : 8 ≤ (b :: rest).length := by
        by_contra hlt
        push_neg at hlt
        rw [Nat.mod_eq_of_lt hlt] at hmod
        simp at hmod
      rw [bitsToBytes, bytesToBits_cons]
      have ht : ((b :: rest).take 8).length = 8 := by
        simp only [List.length_take]
        omega
      have hrt := bitsOfNat_natOfBits ((b :: rest).take 8)
      rw [ht] at hrt
      rw [hrt]
      rw [ih ((b :: rest).drop 8)
        (by simp only [List.length_drop]; simp only [List.length_cons] at hlen ⊢; omega)
        (by simp only [List.length_drop]; simp only [List.length_cons] at hmod ⊢; omega)]
      exact List.take_append_drop 8 _

/-- Unpacking the packed bytes of a byte-aligned bit stream is the
identity. -/
theorem bytesToBits_bitsToBytes (bits : List Bool) (h : bits.length % 8 = 0) :
    bytesToBits (bitsToBytes bits) = bits :=
  bytesToBits_bitsToBytes_aux bits.length bits le_rfl h

/-! ### The streaming compressor machine

Modelled from the spec (§4.4): `sink` copies bytes into the 16-byte
micro-buffer without emitting output; `poll` runs one compression step when
the buffer is full; `compress` alternates the two; `flush` drains the
remaining buffer and pads the bit stream to a byte boundary (with `1` bits,
so that the padding can never complete a literal token), optionally after a
FlushMarker.  The machine state tracks the emitted bit count (`bitsOut`,
initialized to 8 for the header byte) and a `dead` flag recording a fatal
error, after which nothing further is emitted. -/

/-- Compressor state: window, cursor, micro-buffer, total bits emitted
(header included), fatal-error flag. -/
structure MState where
  w : Window
  pos : Nat
  buf : List Nat
  bitsOut : Nat
  dead : Option Error

/-- Modelled from the spec (§4.4 `poll`): one compression step over the
micro-buffer, emitting one token's bits, or marking the machine dead on an
excess-bits literal. -/
def pollOne (p : Params) (st : MState) : List Bool × MState :=
  match st.dead with
  | some _ => ([], st)
  | none =>
    match st.buf with
    | [] => ([], st)
    | x :: rest =>
      let bm := bestMatch p st.w st.pos ((x :: rest).take 16)
      if minMatch p ≤ bm.1 then
        (encMatch p bm.1 bm.2,
         ⟨(mcopy p st.w st.pos bm.2 bm.1).2.1, (mcopy p st.w st.pos bm.2 bm.1).2.2,
          (x :: rest).drop bm.1, st.bitsOut + 5 + p.wb, none⟩)
      else if 2 ^ p.lb ≤ x then
        ([], ⟨st.w, st.pos, st.buf, st.bitsOut, some .ExcessBits⟩)
      else
        (encLit p x,
         ⟨wwrite st.w (st.pos % p.ws) x, (st.pos + 1) % p.ws, rest,
          st.bitsOut + 1 + p.lb, none⟩)

/-- Modelled from the spec (§4.4 `compress`): absorb one input byte — poll
first when the micro-buffer is full, then sink the byte. -/
def mStep (p : Params) (st : MState) (x : Nat) : List Bool × MState :=
  match st.dead with
  | some _ => ([], st)
  | none =>
    if st.buf.length = 16 then
      let r := pollOne p st
      match r.2.dead with
      | some _ => (r.1, r.2)
      | none => (r.1, { r.2 with buf := r.2.buf ++ [x] })
    else ([], { st with buf := st.buf ++ [x] })

/-- Generic output-accumulating fold: run `g` over `l`, threading the state
and concatenating the emitted output. -/
def accRun {σ α β : Type} (g : σ → α → List β × σ) (st : σ) (l : List α) :
    List β × σ :=
  l.foldl (fun acc a => (acc.1 ++ (g acc.2 a).1, (g acc.2 a).2)) ([], st)

theorem accRun_nil {σ α β : Type} (g : σ → α → List β × σ) (st : σ) :
    accRun g st [] = ([], st) := rfl

theorem accRun_acc {σ α β : Type} (g : σ → α → List β × σ) :
    ∀ (l : List α) (st : σ) (acc : List β),
      l.foldl (fun acc a => (acc.1 ++ (g acc.2 a).1, (g acc.2 a).2)) (acc, st) =
        (acc ++ (accRun g st l).1, (accRun g st l).2) := by
  intro l
  induction l with
  | nil => intro st acc; simp [accRun]
  | cons a as ih =>
    intro st acc
    simp only [List.foldl_cons, accRun, List.nil_append]
    rw [ih, ih (g st a).2 (g st a).1]
    simp

theorem accRun_cons {σ α β : Type} (g : σ → α → List β × σ) (st : σ) (a : α) (l : List α) :
    accRun g st (a :: l) =
      ((g st a).1 ++ (accRun g (g st a).2 l).1, (accRun g (g st a).2 l).2) := by
  show List.foldl _ _ (a :: l) = _
  simp only [List.foldl_cons]
  exact accRun_acc g l (g st a).2 (g st a).1

theorem accRun_append {σ α β : Type} (g : σ → α → List β × σ) (st : σ) (l1 l2 : List α) :
    accRun g st (l1 ++ l2) =
      ((accRun g st l1).1 ++ (accRun g (accRun g st l1).2 l2).1,
       (accRun g (accRun g st l1).2 l2).2) := by
  show List.foldl _ _ (l1 ++ l2) = _
  rw [List.foldl_append]
  show List.foldl _ ((accRun g st l1).1, (accRun g st l1).2) l2 = _
  exact accRun_acc g l2 _ _

/-- One `compress_chunk` call with ample output room: absorb a whole input
chunk, returning the emitted bits. -/
def runBytes (p : Params) (st : MState) (input : List Nat) : List Bool × MState :=
  accRun (mStep p) st input

/-- A sequence of `compress_chunk` calls. -/
def runChunksM (p : Params) (st : MState) (chunks : List (List Nat)) :
    List Bool × MState :=
  accRun (runBytes p) st chunks

/-- Input-chunking invariance at the bit level: a sequence of
`compress_chunk` calls emits exactly what a single call on the concatenated
input emits, and leaves the same state. -/
theorem runChunksM_join (p : Params) :
    ∀ (chunks : List (List Nat)) (st : MState),
      runChunksM p st chunks = runBytes p st chunks.join := by
  intro chunks
  induction chunks with
  | nil => intro st; rfl
  | cons c cs ih =>
    intro st
    have h1 : runChunksM p st (c :: cs) =
        ((runBytes p st c).1 ++ (runChunksM p (runBytes p st c).2 cs).1,
         (runChunksM p (runBytes p st c).2 cs).2) := accRun_cons _ _ _ _
    have h2 : runBytes p st (c ++ cs.join) =
        ((runBytes p st c).1 ++ (runBytes p (runBytes p st c).2 cs.join).1,
         (runBytes p (runBytes p st c).2 cs.join).2) := accRun_append _ _ _ _
    rw [h1, ih, show (c :: cs).join = c ++ cs.join from rfl, h2]

/-- Modelled from the spec (§4.4 `flush`): poll until the micro-buffer is
empty (fuelled by the buffer length; each poll consumes at least one
byte). -/
def drainAux (p : Params) : Nat → MState → List Bool × MState
  | 0, st => ([], st)
  | fuel + 1, st =>
    match st.dead with
    | some _ => ([], st)
    | none =>
      match st.buf with
      | [] => ([], st)
      | _ :: _ =>
        let r := pollOne p st
        match r.2.dead with
        | some _ => (r.1, r.2)
        | none =>
          let r2 := drainAux p fuel r.2
          (r.1 ++ r2.1, r2.2)

/-- Modelled from the spec (§4.4 `flush`): drain the micro-buffer, then
optionally emit the FlushMarker, then pad to the next byte boundary with
`1` bits. -/
def flushM (p : Params) (st : MState) (wt : Bool) : List Bool × MState :=
  match st.dead with
  | some _ => ([], st)
  | none =>
    let r := drainAux p st.buf.length st
    match r.2.dead with
    | some _ => (r.1, r.2)
    | none =>
      if wt then
        let pad := (8 - (r.2.bitsOut + 5) % 8) % 8
        (r.1 ++ markerBits ++ List.replicate pad true,
         { r.2 with bitsOut := r.2.bitsOut + 5 + pad })
      else
        let pad := (8 - r.2.bitsOut % 8) % 8
        (r.1 ++ List.replicate pad true, { r.2 with bitsOut := r.2.bitsOut + pad })

theorem mStep_dead (p : Params) (st : MState) (x : Nat) (e : Error)
    (h : st.dead = some e) : mStep p st x = ([], st) := by
  rw [mStep, h]

theorem runBytes_nil (p : Params) (st : MState) : runBytes p st [] = ([], st) := rfl

theorem runBytes_cons (p : Params) (st : MState) (x : Nat) (xs : List Nat) :
    runBytes p st (x :: xs) =
      ((mStep p st x).1 ++ (runBytes p (mStep p st x).2 xs).1,
       (runBytes p (mStep p st x).2 xs).2) :=
  accRun_cons _ _ _ _

/-- A dead (fatally-errored) machine emits nothing further. -/
theorem runBytes_dead (p : Params) (e : Error) :
    ∀ (input : List Nat) (st : MState), st.dead = some e →
      runBytes p st input = ([], st) := by
  intro input
  induction input with
  | nil => intro st h; rfl
  | cons x xs ih =>
    intro st h
    rw [runBytes_cons, mStep_dead p st x e h, ih st h]
    simp

/-- The sink/poll refinement: a `compress_chunk` call on a live machine
tracks the pure tokenizer `encBody` run on the buffered-plus-new input; the
emitted bits are a prefix of the full token stream and the leftover
micro-buffer accounts for the rest. -/
theorem runBytes_spec (p : Params) (hp : p.valid) :
    ∀ (input : List Nat) (st : MState) (bitsAll : List Bool) (w' : Window) (pos' : Nat),
      st.dead = none → st.buf.length ≤ 16 →
      encBody p st.w st.pos (st.buf ++ input) = .ok (bitsAll, w', pos') →
      (runBytes p st input).2.dead = none ∧
      (runBytes p st input).2.buf.length ≤ 16 ∧
      (runBytes p st input).2.bitsOut = st.bitsOut + (runBytes p st input).1.length ∧
      ∃ bits2,
        encBody p (runBytes p st input).2.w (runBytes p st input).2.pos
          (runBytes p st input).2.buf = .ok (bits2, w', pos') ∧
        bitsAll = (runBytes p st input).1 ++ bits2 := by
  intro input
  induction input with
  | nil =>
    intro st bitsAll w' pos' hdead hbuf henc
    rw [List.append_nil] at henc
    exact ⟨hdead, hbuf, by rw [runBytes_nil]; simp, bitsAll, henc, rfl⟩
  | cons x xs ih =>
    intro st bitsAll w' pos' hdead hbuf henc
    rw [runBytes_cons]
    rw [mStep, hdead]
    simp only
    by_cases h16 : st.buf.length = 16
    · -- the micro-buffer is full: poll, then sink
      rw [if_pos h16]
      obtain ⟨b, brest, hbl⟩ : ∃ b brest, st.buf = b :: brest := by
        cases hb : st.buf
        · rw [hb] at h16; simp at h16
        · exact ⟨_, _, rfl⟩
      have hb16 : (b :: brest).length = 16 := by rw [← hbl]; exact h16
      have ht3 : (b :: brest).take 16 = b :: brest :=
        List.take_of_length_le (le_of_eq hb16)
      have ht2 : (b :: (brest ++ (x :: xs))).take 16 = b :: brest := by
        rw [← List.cons_append]
        rw [List.take_append_of_le_length (le_of_eq hb16.symm)]
        exact ht3
      rw [hbl] at henc
      rw [show (b :: brest) ++ (x :: xs) = b :: (brest ++ (x :: xs)) from rfl] at henc
      rw [encBody] at henc
      rw [pollOne, hdead]
      simp only [hbl]
      rw [ht3]
      rw [ht2] at henc
      split at henc
      · -- match token emitted by the poll
        rename_i hm
        split at henc
        · exact absurd henc (by simp)
        · rename_i r heq
          obtain ⟨rbits, rw2, rp2⟩ := r
          simp only [Except.ok.injEq, Prod.mk.injEq] at henc
          obtain ⟨h1, h2, h3⟩ := henc
          subst h1; subst h2; subst h3
          rw [if_pos hm]
          simp only
          -- facts about the chosen match
          have hfacts := match_branch_facts p hp st.w st.pos b (brest ++ (x :: xs))
            (by rw [ht2]; exact hm)
          rw [ht2] at hfacts
          obtain ⟨hL2, hL16, hOlt, hmc⟩ := hfacts
          have hdropC : (b :: (brest ++ (x :: xs))).drop
              (bestMatch p st.w st.pos (b :: brest)).1 =
              (b :: brest).drop (bestMatch p st.w st.pos (b :: brest)).1 ++ (x :: xs) := by
            rw [← List.cons_append]
            exact List.drop_append_of_le_length (by rw [hb16]; exact hL16)
          rw [hdropC] at heq
          -- the state after poll and sink
          have hnext := ih
            ⟨(mcopy p st.w st.pos (bestMatch p st.w st.pos (b :: brest)).2
                (bestMatch p st.w st.pos (b :: brest)).1).2.1,
             (mcopy p st.w st.pos (bestMatch p st.w st.pos (b :: brest)).2
                (bestMatch p st.w st.pos (b :: brest)).1).2.2,
             (b :: brest).drop (bestMatch p st.w st.pos (b :: brest)).1 ++ [x],
             st.bitsOut + 5 + p.wb, none⟩
            rbits rw2 rp2 rfl
            (by
              simp only [List.length_append, List.length_drop, hb16, List.length_cons,
                List.length_nil]
              omega)
            (by
              simp only
              rw [List.append_assoc, List.singleton_append]
              exact heq)
          obtain ⟨hd1, hd2, hd3, bits2, henc2, hbits2⟩ := hnext
          refine ⟨hd1, hd2, ?_, bits2, henc2, ?_⟩
          · rw [hd3]
            simp only
            simp [encMatch_length]
            omega
          · rw [hbits2]
            simp [List.append_assoc]
      · -- literal emitted by the poll
        rename_i hm
        split at henc
        · exact absurd henc (by simp)
        · rename_i hbx
          split at henc
          · exact absurd henc (by simp)
          · rename_i r heq
            obtain ⟨rbits, rw2, rp2⟩ := r
            simp only [Except.ok.injEq, Prod.mk.injEq] at henc
            obtain ⟨h1, h2, h3⟩ := henc
            subst h1; subst h2; subst h3
            rw [if_neg hm, if_neg hbx]
            simp only
            have hnext := ih
              ⟨wwrite st.w (st.pos % p.ws) b, (st.pos + 1) % p.ws,
               brest ++ [x], st.bitsOut + 1 + p.lb, none⟩
              rbits rw2 rp2 rfl
              (by
                simp only [List.length_append, List.length_cons, List.length_nil]
                simp only [List.length_cons] at hb16
                omega)
              (by
                simp only
                rw [List.append_assoc, List.singleton_append]
                exact heq)
            obtain ⟨hd1, hd2, hd3, bits2, henc2, hbits2⟩ := hnext
            refine ⟨hd1, hd2, ?_, bits2, henc2, ?_⟩
            · rw [hd3]
              simp only
              simp [encLit_length]
              omega
            · rw [hbits2]
              simp [List.append_assoc]
    · -- room in the micro-buffer: sink only
      rw [if_neg h16]
      simp only
      have hnext := ih ⟨st.w, st.pos, st.buf ++ [x], st.bitsOut, none⟩
        bitsAll w' pos' rfl
        (by
          simp only [List.length_append, List.length_cons, List.length_nil]
          omega)
        (by
          simp only
          rw [List.append_assoc, List.singleton_append]
          exact henc)
      obtain ⟨hd1, hd2, hd3, bits2, henc2, hbits2⟩ := hnext
      exact ⟨hd1, hd2, by rw [hd3]; simp, bits2, henc2, by rw [hbits2]; simp⟩

/-- Modelled from the spec (§6.1): the one-byte stream header,
`window_bits - 8` (4 bits), `literal_bits - 5` (2 bits), the custom
dictionary flag, and a reserved `0` bit, MSB-first. -/
def headerByte (p : Params) (cd : Bool) : Nat :=
  (p.wb - 8) * 16 + (p.lb - 5) * 4 + (if cd then 2 else 0)

theorem headerByte_lt (p : Params) (hp : p.valid) (cd : Bool) :
    headerByte p cd < 256 := by
  obtain ⟨h1, h2, h3, h4⟩ := hp
  unfold headerByte
  split <;> omega

/-- Draining the micro-buffer at flush time emits exactly the remaining
tokens of the pure tokenizer run on the buffer. -/
theorem drainAux_spec (p : Params) (hp : p.valid) :
    ∀ (fuel : Nat) (st : MState) (bits2 : List Bool) (w' : Window) (pos' : Nat),
      st.dead = none → st.buf.length ≤ fuel →
      encBody p st.w st.pos st.buf = .ok (bits2, w', pos') →
      drainAux p fuel st = (bits2, ⟨w', pos', [], st.bitsOut + bits2.length, none⟩) := by
  intro fuel
  induction fuel with
  | zero =>
    intro st bits2 w' pos' hdead hfuel henc
    have hb : st.buf = [] := List.eq_nil_of_length_eq_zero (Nat.le_zero.mp hfuel)
    rw [hb, encBody_nil] at henc
    simp only [Except.ok.injEq, Prod.mk.injEq] at henc
    obtain ⟨h1, h2, h3⟩ := henc
    subst h1; subst h2; subst h3
    show ([], st) = _
    cases st with
    | mk w pos buf bitsOut dead =>
      simp only at hb hdead
      subst hb; subst hdead
      simp
  | succ k ih =>
    intro st bits2 w' pos' hdead hfuel henc
    rw [drainAux, hdead]
    simp only
    cases hb : st.buf with
    | nil =>
      rw [hb, encBody_nil] at henc
      simp only [Except.ok.injEq, Prod.mk.injEq] at henc
      obtain ⟨h1, h2, h3⟩ := henc
      subst h1; subst h2; subst h3
      cases st with
      | mk w pos buf bitsOut dead =>
        simp only at hb hdead
        subst hb; subst hdead
        simp
    | cons b brest =>
      rw [hb] at henc
      rw [encBody] at henc
      rw [pollOne, hdead]
      simp only [hb]
      split at henc
      · -- match token
        rename_i hm
        split at henc
        · exact absurd henc (by simp)
        · rename_i r heq
          obtain ⟨rbits, rw2, rp2⟩ := r
          simp only [Except.ok.injEq, Prod.mk.injEq] at henc
          obtain ⟨h1, h2, h3⟩ := henc
          subst h1; subst h2; subst h3
          rw [if_pos hm]
          simp only
          have hL1 : 1 ≤ (bestMatch p st.w st.pos ((b :: brest).take 16)).1 :=
            le_trans (minMatch_pos p) hm
          rw [ih ⟨(mcopy p st.w st.pos (bestMatch p st.w st.pos ((b :: brest).take 16)).2
                (bestMatch p st.w st.pos ((b :: brest).take 16)).1).2.1,
              (mcopy p st.w st.pos (bestMatch p st.w st.pos ((b :: brest).take 16)).2
                (bestMatch p st.w st.pos ((b :: brest).take 16)).1).2.2,
              (b :: brest).drop (bestMatch p st.w st.pos ((b :: brest).take 16)).1,
              st.bitsOut + 5 + p.wb, none⟩
            rbits rw2 rp2 rfl
            (by
              show ((b :: brest).drop (bestMatch p st.w st.pos ((b :: brest).take 16)).1).length ≤ k
              simp only [List.length_drop, List.length_cons]
              rw [hb] at hfuel
              simp only [List.length_cons] at hfuel
              omega)
            heq]
          simp only [Prod.mk.injEq, MState.mk.injEq, true_and, and_true,
            List.length_append, encMatch_length]
          omega
      · -- literal token
        rename_i hm
        rw [if_neg hm]
        split at henc
        · exact absurd henc (by simp)
        · rename_i hbx
          rw [if_neg hbx]
          split at henc
          · exact absurd henc (by simp)
          · rename_i r heq
            obtain ⟨rbits, rw2, rp2⟩ := r
            simp only [Except.ok.injEq, Prod.mk.injEq] at henc
            obtain ⟨h1, h2, h3⟩ := henc
            subst h1; subst h2; subst h3
            simp only
            rw [ih ⟨wwrite st.w (st.pos % p.ws) b, (st.pos + 1) % p.ws, brest,
                st.bitsOut + 1 + p.lb, none⟩
              rbits rw2 rp2 rfl
              (by
                show brest.length ≤ k
                rw [hb] at hfuel
                simp only [List.length_cons] at hfuel
                omega)
              heq]
            simp only [Prod.mk.injEq, MState.mk.injEq, true_and, and_true,
              List.length_append, encLit_length]
            omega

/-- The byte-boundary padding appended by `flush` (§4.4, §6.1): the
FlushMarker when `write_token` is set, then `1` bits up to the next byte
boundary. -/
def flushTail (wt : Bool) (bitsOut : Nat) : List Bool :=
  if wt then markerBits ++ List.replicate ((8 - (bitsOut + 5) % 8) % 8) true
  else List.replicate ((8 - bitsOut % 8) % 8) true

@[simp] theorem flushTail_length (wt : Bool) (bitsOut : Nat) :
    (flushTail wt bitsOut).length =
      if wt then 5 + (8 - (bitsOut + 5) % 8) % 8 else (8 - bitsOut % 8) % 8 := by
  cases wt <;> simp [flushTail]

/-- `flush` emits the tokens of the remaining buffer followed by the
byte-boundary padding. -/
theorem flushM_spec (p : Params) (hp : p.valid) (st : MState) (bits2 : List Bool)
    (w' : Window) (pos' : Nat) (wt : Bool)
    (hdead : st.dead = none)
    (henc : encBody p st.w st.pos st.buf = .ok (bits2, w', pos')) :
    flushM p st wt = (bits2 ++ flushTail wt (st.bitsOut + bits2.length),
      ⟨w', pos', [],
       st.bitsOut + bits2.length + (flushTail wt (st.bitsOut + bits2.length)).length,
       none⟩) := by
  rw [flushM, hdead]
  simp only
  rw [drainAux_spec p hp st.buf.length st bits2 w' pos' hdead le_rfl henc]
  simp only
  cases wt
  · simp only [flushTail, if_neg (by simp : ¬False), Bool.false_eq_true, if_false]
    simp [List.append_assoc]
  · simp only [flushTail, if_true]
    simp [List.append_assoc, markerBits_length]
    omega

/-- The full compressed bit stream of one compressor run: header byte, then
the chunked `compress_chunk` emissions, then the `flush` emission. -/
def compressBitsRun (p : Params) (cd : Bool) (w0 : Window) (chunks : List (List Nat))
    (wt : Bool) : List Bool × MState :=
  (bitsOfNat 8 (headerByte p cd) ++
     ((runChunksM p ⟨w0, 0, [], 8, none⟩ chunks).1 ++
      (flushM p (runChunksM p ⟨w0, 0, [], 8, none⟩ chunks).2 wt).1),
   (flushM p (runChunksM p ⟨w0, 0, [], 8, none⟩ chunks).2 wt).2)

/-- When the pure tokenizer accepts the joined input, the machine run over
any chunking emits header ++ token bits ++ padding. -/
theorem compressBitsRun_ok (p : Params) (hp : p.valid) (cd : Bool) (w0 : Window)
    (chunks : List (List Nat)) (wt : Bool) (bits : List Bool) (w' : Window) (pos' : Nat)
    (henc : encBody p w0 0 chunks.join = .ok (bits, w', pos')) :
    compressBitsRun p cd w0 chunks wt =
      (bitsOfNat 8 (headerByte p cd) ++ (bits ++ flushTail wt (8 + bits.length)),
       ⟨w', pos', [], 8 + bits.length + (flushTail wt (8 + bits.length)).length,
        none⟩) := by
  unfold compressBitsRun
  rw [runChunksM_join]
  have h1 := runBytes_spec p hp chunks.join ⟨w0, 0, [], 8, none⟩ bits w' pos' rfl
    (by simp) (by simpa using henc)
  obtain ⟨hd1, hd2, hd3, bits2, henc2, hbits2⟩ := h1
  rw [flushM_spec p hp _ bits2 w' pos' wt hd1 henc2]
  rw [hd3]
  simp only
  subst hbits2
  simp only [Prod.mk.injEq, MState.mk.injEq, List.length_append]
  simp [List.append_assoc, Nat.add_assoc]


/-! ### Decoder behaviour on incomplete tokens and padding -/

theorem decMach_false_short (p : Params) (w : Window) (pos bitPos : Nat)
    (rest : List Bool) (h : rest.length < p.lb) :
    decMach p w pos (false :: rest) bitPos = ⟨[], w, pos, false :: rest, bitPos⟩ := by
  rw [decMach]
  simp [Nat.not_le.mpr h]

theorem decMach_true_short (p : Params) (w : Window) (pos bitPos : Nat)
    (rest : List Bool) (h : rest.length < 4) :
    decMach p w pos (true :: rest) bitPos = ⟨[], w, pos, true :: rest, bitPos⟩ := by
  rw [decMach]
  simp [Nat.not_le.mpr h]

theorem decMach_true_match_short (p : Params) (w : Window) (pos bitPos : Nat)
    (rest : List Bool) (h4 : 4 ≤ rest.length) (hc : natOfBits (rest.take 4) ≠ 15)
    (ho : (rest.drop 4).length < p.wb) :
    decMach p w pos (true :: rest) bitPos = ⟨[], w, pos, true :: rest, bitPos⟩ := by
  rw [decMach]
  have ho' : rest.length - 4 < p.wb := by simpa using ho
  simp [h4, hc, Nat.not_le.mpr ho', List.length_drop]

theorem natOfBits_replicate4 : natOfBits (List.replicate 4 true) = 15 := by decide

/-- The final padding of a stream flushed without a marker decodes to
nothing: fewer than five `1` bits cannot complete any token, and five or
more are read as a FlushMarker whose byte-boundary skip consumes the rest. -/
theorem decMach_padFalse (p : Params) (w : Window) (pos L : Nat) :
    (decMach p w pos (List.replicate ((8 - L % 8) % 8) true) L).out = [] := by
  have hk7 : (8 - L % 8) % 8 ≤ 7 := by omega
  have hkL : (L + (8 - L % 8) % 8) % 8 = 0 := by omega
  set k := (8 - L % 8) % 8 with hk
  clear_value k
  interval_cases k
  · simp [decMach_nil]
  · rw [show List.replicate 1 true = true :: List.replicate 0 true from rfl,
      decMach_true_short p w pos L _ (by simp)]
  · rw [show List.replicate 2 true = true :: List.replicate 1 true from rfl,
      decMach_true_short p w pos L _ (by simp)]
  · rw [show List.replicate 3 true = true :: List.replicate 2 true from rfl,
      decMach_true_short p w pos L _ (by simp)]
  · rw [show List.replicate 4 true = true :: List.replicate 3 true from rfl,
      decMach_true_short p w pos L _ (by simp)]
  · rw [show List.replicate 5 true = true :: List.replicate 4 true from rfl,
      decMach_true_flush p w pos L _ (by simp) (by decide)]
    dsimp only
    simp [decMach_nil]
  · rw [show List.replicate 6 true = true :: List.replicate 5 true from rfl,
      decMach_true_flush p w pos L _ (by simp) (by decide)]
    dsimp only
    have hpad : (8 - (L + 5) % 8) % 8 = 1 := by omega
    rw [hpad]
    rw [show (List.replicate 5 true).drop 4 = List.replicate 1 true from rfl]
    simp [decMach_nil]
  · rw [show List.replicate 7 true = true :: List.replicate 6 true from rfl,
      decMach_true_flush p w pos L _ (by simp) (by decide)]
    dsimp only
    have hpad : (8 - (L + 5) % 8) % 8 = 2 := by omega
    rw [hpad]
    rw [show (List.replicate 6 true).drop 4 = List.replicate 2 true from rfl]
    simp [decMach_nil]

/-- The FlushMarker followed by its byte-boundary padding decodes to
nothing. -/
theorem decMach_padTrue (p : Params) (w : Window) (pos L : Nat) :
    (decMach p w pos
      (markerBits ++ List.replicate ((8 - (L + 5) % 8) % 8) true) L).out = [] := by
  have hmk : markerBits = true :: List.replicate 4 true := by decide
  rw [hmk]
  rw [show (true :: List.replicate 4 true) ++ List.replicate ((8 - (L + 5) % 8) % 8) true
      = true :: (List.replicate 4 true ++ List.replicate ((8 - (L + 5) % 8) % 8) true)
    from rfl]
  rw [decMach_true_flush p w pos L _ (by simp)
    (by
      rw [List.take_append_of_le_length (by simp)]
      decide)]
  dsimp only
  rw [List.drop_append_of_le_length (by simp)]
  rw [show (List.replicate 4 true).drop 4 = [] from rfl]
  rw [List.nil_append, List.drop_of_length_le (by simp)]
  simp [decMach_nil]

/-! ### The streaming decompressor machine

Modelled from the spec (§4.5): the decompressor consumes whole input bytes,
buffers the bits of any incomplete trailing token (`pending`), and tracks
the stream bit position for FlushMarker byte-alignment. -/

/-- Decompressor state: window, cursor, buffered unconsumed bits, and the
bit position of the first buffered bit. -/
structure DState where
  w : Window
  pos : Nat
  pending : List Bool
  bitPos : Nat

/-- One `decompress_chunk` call with ample output room: feed the bytes'
bits after the buffered ones and decode as many tokens as possible. -/
def decompressChunkM (p : Params) (st : DState) (input : List Nat) :
    List Nat × DState :=
  ((decMach p st.w st.pos (st.pending ++ bytesToBits input) st.bitPos).out,
   ⟨(decMach p st.w st.pos (st.pending ++ bytesToBits input) st.bitPos).w,
    (decMach p st.w st.pos (st.pending ++ bytesToBits input) st.bitPos).pos,
    (decMach p st.w st.pos (st.pending ++ bytesToBits input) st.bitPos).leftover,
    (decMach p st.w st.pos (st.pending ++ bytesToBits input) st.bitPos).bitEnd⟩)

/-- A sequence of `decompress_chunk` calls. -/
def runDChunksM (p : Params) (st : DState) (chunks : List (List Nat)) :
    List Nat × DState :=
  accRun (decompressChunkM p) st chunks

/-- Continuing a decoder run with more bits. -/
def decCont (p : Params) (r : DecRes) (bits2 : List Bool) : DecRes :=
  ⟨r.out ++ (decMach p r.w r.pos (r.leftover ++ bits2) r.bitEnd).out,
   (decMach p r.w r.pos (r.leftover ++ bits2) r.bitEnd).w,
   (decMach p r.w r.pos (r.leftover ++ bits2) r.bitEnd).pos,
   (decMach p r.w r.pos (r.leftover ++ bits2) r.bitEnd).leftover,
   (decMach p r.w r.pos (r.leftover ++ bits2) r.bitEnd).bitEnd⟩

/-- The decoder never treats a continuation boundary specially: decoding
`bits1 ++ bits2` equals decoding `bits1`, then continuing from its leftover
with `bits2`, provided `bits1` ends on a byte boundary (input arrives in
whole bytes). -/
theorem decMach_append (p : Params) :
    ∀ (n : Nat) (bits1 : List Bool), bits1.length ≤ n →
    ∀ (bits2 : List Bool) (w : Window) (pos bitPos : Nat),
      (bitPos + bits1.length) % 8 = 0 →
      decMach p w pos (bits1 ++ bits2) bitPos =
        decCont p (decMach p w pos bits1 bitPos) bits2 := by
  intro n
  induction n with
  | zero =>
    intro bits1 hlen bits2 w pos bitPos _
    have h : bits1 = [] := List.eq_nil_of_length_eq_zero (Nat.le_zero.mp hlen)
    subst h
    rw [List.nil_append, decMach_nil]
    show _ = decCont p ⟨[], w, pos, [], bitPos⟩ bits2
    rw [decCont]
    simp
  | succ k ih =>
    intro bits1 hlen bits2 w pos bitPos halign
    match bits1 with
    | [] =>
      rw [List.nil_append, decMach_nil]
      show _ = decCont p ⟨[], w, pos, [], bitPos⟩ bits2
      rw [decCont]
      simp
    | false :: rest =>
      by_cases hl : p.lb ≤ rest.length
      · rw [show (false :: rest) ++ bits2 = false :: (rest ++ bits2) from rfl]
        rw [decMach_false p w pos bitPos _ (le_trans hl (by simp))]
        rw [decMach_false p w pos bitPos rest hl]
        dsimp only
        rw [List.take_append_of_le_length hl, List.drop_append_of_le_length hl]
        rw [ih (rest.drop p.lb)
          (by simp only [List.length_drop, List.length_cons] at hlen ⊢; omega)
          bits2 _ _ _
          (by simp only [List.length_drop, List.length_cons] at halign ⊢; omega)]
        rw [decCont, decCont]
        simp [List.cons_append]
      · push_neg at hl
        rw [decMach_false_short p w pos bitPos rest hl]
        rw [decCont]
        simp
    | true :: rest =>
      by_cases h4 : 4 ≤ rest.length
      · have htk : (rest ++ bits2).take 4 = rest.take 4 :=
          List.take_append_of_le_length h4
        by_cases hc : natOfBits (rest.take 4) = 15
        · -- flush marker
          rw [show (true :: rest) ++ bits2 = true :: (rest ++ bits2) from rfl]
          rw [decMach_true_flush p w pos bitPos _ (le_trans h4 (by simp))
            (by rw [htk]; exact hc)]
          rw [decMach_true_flush p w pos bitPos rest h4 hc]
          dsimp only
          have hpad : (8 - (bitPos + 5) % 8) % 8 ≤ rest.length - 4 := by
            simp only [List.length_cons] at halign
            omega
          rw [List.drop_append_of_le_length h4]
          rw [List.drop_append_of_le_length (by simp only [List.length_drop]; omega)]
          rw [ih ((rest.drop 4).drop ((8 - (bitPos + 5) % 8) % 8))
            (by simp only [List.length_drop, List.length_cons] at hlen ⊢; omega)
            bits2 _ _ _
            (by simp only [List.length_drop, List.length_cons] at halign ⊢; omega)]
        · by_cases ho : p.wb ≤ (rest.drop 4).length
          · rw [show (true :: rest) ++ bits2 = true :: (rest ++ bits2) from rfl]
            rw [decMach_true_match p w pos bitPos _ (le_trans h4 (by simp))
              (by rw [htk]; exact hc)
              (by rw [List.drop_append_of_le_length h4]; simp only [List.length_append]
                  omega)]
            rw [decMach_true_match p w pos bitPos rest h4 hc ho]
            dsimp only
            rw [htk]
            rw [List.drop_append_of_le_length h4]
            rw [List.take_append_of_le_length ho, List.drop_append_of_le_length ho]
            rw [ih ((rest.drop 4).drop p.wb)
              (by simp only [List.length_drop, List.length_cons] at hlen ⊢; omega)
              bits2 _ _ _
              (by
                have ho2 : p.wb ≤ rest.length - 4 := by simpa using ho
                simp only [List.length_drop, List.length_cons] at halign ⊢
                omega)]
            rw [decCont, decCont]
            simp [List.append_assoc]
          · push_neg at ho
            rw [decMach_true_match_short p w pos bitPos rest h4 hc ho]
            rw [decCont]
            simp
      · push_neg at h4
        rw [decMach_true_short p w pos bitPos rest h4]
        rw [decCont]
        simp

/-- The decoder consumes exactly the bits it does not leave over. -/
theorem decMach_consumed (p : Params) :
    ∀ (n : Nat) (bits : List Bool), bits.length ≤ n →
    ∀ (w : Window) (pos bitPos : Nat), (bitPos + bits.length) % 8 = 0 →
      (decMach p w pos bits bitPos).bitEnd +
          (decMach p w pos bits bitPos).leftover.length = bitPos + bits.length := by
  intro n
  induction n with
  | zero =>
    intro bits hlen w pos bitPos _
    have h : bits = [] := List.eq_nil_of_length_eq_zero (Nat.le_zero.mp hlen)
    subst h
    rw [decMach_nil]
  | succ k ih =>
    intro bits hlen w pos bitPos halign
    match bits with
    | [] => rw [decMach_nil]
    | false :: rest =>
      by_cases hl : p.lb ≤ rest.length
      · rw [decMach_false p w pos bitPos rest hl]
        dsimp only
        rw [ih (rest.drop p.lb)
          (by simp only [List.length_drop, List.length_cons] at hlen ⊢; omega)
          _ _ _
          (by simp only [List.length_drop, List.length_cons] at halign ⊢; omega)]
        simp only [List.length_drop, List.length_cons]
        omega
      · push_neg at hl
        rw [decMach_false_short p w pos bitPos rest hl]
    | true :: rest =>
      by_cases h4 : 4 ≤ rest.length
      · by_cases hc : natOfBits (rest.take 4) = 15
        · rw [decMach_true_flush p w pos bitPos rest h4 hc]
          dsimp only
          have hpad : (8 - (bitPos + 5) % 8) % 8 ≤ rest.length - 4 := by
            simp only [List.length_cons] at halign
            omega
          rw [ih ((rest.drop 4).drop ((8 - (bitPos + 5) % 8) % 8))
            (by simp only [List.length_drop, List.length_cons] at hlen ⊢; omega)
            _ _ _
            (by simp only [List.length_drop, List.length_cons] at halign ⊢; omega)]
          simp only [List.length_drop, List.length_cons]
          omega
        · by_cases ho : p.wb ≤ (rest.drop 4).length
          · rw [decMach_true_match p w pos bitPos rest h4 hc ho]
            dsimp only
            rw [ih ((rest.drop 4).drop p.wb)
              (by simp only [List.length_drop, List.length_cons] at hlen ⊢; omega)
              _ _ _
              (by
                have ho2 : p.wb ≤ rest.length - 4 := by simpa using ho
                simp only [List.length_drop, List.length_cons] at halign ⊢
                omega)]
            simp only [List.length_drop, List.length_cons] at ho ⊢
            omega
          · push_neg at ho
            rw [decMach_true_match_short p w pos bitPos rest h4 hc ho]
      · push_neg at h4
        rw [decMach_true_short p w pos bitPos rest h4]

/-- The leftover of a decoder run is stuck: running the decoder on it alone
decodes nothing and leaves it unchanged. -/
theorem decMach_leftover_idem (p : Params) :
    ∀ (n : Nat) (bits : List Bool), bits.length ≤ n →
    ∀ (w : Window) (pos bitPos : Nat),
      decMach p (decMach p w pos bits bitPos).w (decMach p w pos bits bitPos).pos
          (decMach p w pos bits bitPos).leftover (decMach p w pos bits bitPos).bitEnd
        = ⟨[], (decMach p w pos bits bitPos).w, (decMach p w pos bits bitPos).pos,
           (decMach p w pos bits bitPos).leftover,
           (decMach p w pos bits bitPos).bitEnd⟩ := by
  intro n
  induction n with
  | zero =>
    intro bits hlen w pos bitPos
    have h : bits = [] := List.eq_nil_of_length_eq_zero (Nat.le_zero.mp hlen)
    subst h
    rw [decMach_nil]
    rw [decMach_nil]
  | succ k ih =>
    intro bits hlen w pos bitPos
    match bits with
    | [] => rw [decMach_nil]; rw [decMach_nil]
    | false :: rest =>
      by_cases hl : p.lb ≤ rest.length
      · rw [decMach_false p w pos bitPos rest hl]
        dsimp only
        exact ih (rest.drop p.lb)
          (by simp only [List.length_drop, List.length_cons] at hlen ⊢; omega) _ _ _
      · push_neg at hl
        rw [decMach_false_short p w pos bitPos rest hl]
        exact decMach_false_short p w pos bitPos rest hl
    | true :: rest =>
      by_cases h4 : 4 ≤ rest.length
      · by_cases hc : natOfBits (rest.take 4) = 15
        · rw [decMach_true_flush p w pos bitPos rest h4 hc]
          dsimp only
          exact ih ((rest.drop 4).drop ((8 - (bitPos + 5) % 8) % 8))
            (by simp only [List.length_drop, List.length_cons] at hlen ⊢; omega) _ _ _
        · by_cases ho : p.wb ≤ (rest.drop 4).length
          · rw [decMach_true_match p w pos bitPos rest h4 hc ho]
            dsimp only
            exact ih ((rest.drop 4).drop p.wb)
              (by simp only [List.length_drop, List.length_cons] at hlen ⊢; omega) _ _ _
          · push_neg at ho
            rw [decMach_true_match_short p w pos bitPos rest h4 hc ho]
            exact decMach_true_match_short p w pos bitPos rest h4 hc ho
      · push_neg at h4
        rw [decMach_true_short p w pos bitPos rest h4]
        exact decMach_true_short p w pos bitPos rest h4

/-- Well-formedness of a decompressor state between calls: the buffered
bits start at a byte-aligned position minus their own length, and they are
stuck (an incomplete token). -/
def DGood (p : Params) (st : DState) : Prop :=
  (st.bitPos + st.pending.length) % 8 = 0 ∧
  decMach p st.w st.pos st.pending st.bitPos =
    ⟨[], st.w, st.pos, st.pending, st.bitPos⟩

/-- Splitting one decompressor input into two consecutive calls changes
nothing. -/
theorem decompressChunkM_append (p : Params) (st : DState) (a b : List Nat)
    (halign : (st.bitPos + st.pending.length) % 8 = 0) :
    decompressChunkM p st (a ++ b) =
      ((decompressChunkM p st a).1 ++
         (decompressChunkM p (decompressChunkM p st a).2 b).1,
       (decompressChunkM p (decompressChunkM p st a).2 b).2) := by
  unfold decompressChunkM
  dsimp only
  rw [bytesToBits_append, ← List.append_assoc]
  rw [decMach_append p (st.pending ++ bytesToBits a).length _ le_rfl
    (bytesToBits b) st.w st.pos st.bitPos
    (by simp only [List.length_append, bytesToBits_length]; omega)]
  rw [decCont]

/-- Input-chunking invariance of the decompressor: a sequence of
`decompress_chunk` calls is equivalent to a single call on the concatenated
input. -/
theorem runDChunks_join (p : Params) :
    ∀ (chunks : List (List Nat)) (st : DState), DGood p st →
      runDChunksM p st chunks = decompressChunkM p st chunks.join := by
  intro chunks
  induction chunks with
  | nil =>
    intro st hgood
    show ([], st) = _
    rw [decompressChunkM]
    rw [show ([] : List (List Nat)).join = [] from rfl]
    rw [bytesToBits_nil, List.append_nil, hgood.2]
  | cons c cs ih =>
    intro st hgood
    obtain ⟨halign, hstuck⟩ := hgood
    have hstep : runDChunksM p st (c :: cs) =
        ((decompressChunkM p st c).1 ++ (runDChunksM p (decompressChunkM p st c).2 cs).1,
         (runDChunksM p (decompressChunkM p st c).2 cs).2) := accRun_cons _ _ _ _
    have halign1 : (st.bitPos + (st.pending ++ bytesToBits c).length) % 8 = 0 := by
      simp only [List.length_append, bytesToBits_length]
      omega
    have hgood1 : DGood p (decompressChunkM p st c).2 := by
      constructor
      · show ((decMach p st.w st.pos (st.pending ++ bytesToBits c) st.bitPos).bitEnd +
          (decMach p st.w st.pos (st.pending ++ bytesToBits c) st.bitPos).leftover.length)
            % 8 = 0
        rw [decMach_consumed p (st.pending ++ bytesToBits c).length _ le_rfl
          st.w st.pos st.bitPos halign1]
        exact halign1
      · exact decMach_leftover_idem p (st.pending ++ bytesToBits c).length _ le_rfl
          st.w st.pos st.bitPos
    rw [hstep, ih _ hgood1]
    rw [show (c :: cs).join = c ++ cs.join from rfl]
    rw [decompressChunkM_append p st c cs.join halign]

/-- When every input byte fits in `literal_bits`, the tokenizer cannot fail. -/
theorem encBody_total (p : Params) :
    ∀ (n : Nat) (xs : List Nat), xs.length ≤ n → (∀ b ∈ xs, b < 2 ^ p.lb) →
    ∀ (w : Window) (pos : Nat),
      ∃ bits w' pos', encBody p w pos xs = .ok (bits, w', pos') := by
  intro n
  induction n with
  | zero =>
    intro xs hlen _ w pos
    have h : xs = [] := List.eq_nil_of_length_eq_zero (Nat.le_zero.mp hlen)
    subst h
    exact ⟨[], w, pos, encBody_nil p w pos⟩
  | succ k ih =>
    intro xs hlen hall w pos
    match xs with
    | [] => exact ⟨[], w, pos, encBody_nil p w pos⟩
    | x :: rest =>
      rw [encBody]
      split
      · rename_i hm
        obtain ⟨bits, w', pos', hrec⟩ := ih
          ((x :: rest).drop (bestMatch p w pos ((x :: rest).take 16)).1)
          (by
            simp only [List.length_drop, List.length_cons] at hlen ⊢
            have := minMatch_pos p
            omega)
          (fun b hb => hall b (List.mem_of_mem_drop hb))
          (mcopy p w pos (bestMatch p w pos ((x :: rest).take 16)).2
            (bestMatch p w pos ((x :: rest).take 16)).1).2.1
          (mcopy p w pos (bestMatch p w pos ((x :: rest).take 16)).2
            (bestMatch p w pos ((x :: rest).take 16)).1).2.2
        rw [hrec]
        exact ⟨_, w', pos', rfl⟩
      · rename_i hm
        have hx : x < 2 ^ p.lb := hall x (by simp)
        rw [if_neg (Nat.not_le.mpr hx)]
        obtain ⟨bits, w', pos', hrec⟩ := ih rest
          (by simp only [List.length_cons] at hlen; omega)
          (fun b hb => hall b (by simp [hb]))
          (wwrite w (pos % p.ws) x) ((pos + 1) % p.ws)
        rw [hrec]
        exact ⟨_, w', pos', rfl⟩

/-- The padded stream always ends on a byte boundary. -/
theorem stream_align (wt : Bool) (L : Nat) :
    (8 + L + (flushTail wt (8 + L)).length) % 8 = 0 := by
  cases wt <;> simp only [flushTail_length] <;> norm_num <;> omega

/-! ### The Rust binding layer

Translated from `src/tamp/src/lib.rs`.  `Config`, its builder methods,
`to_c_config`, the constructors of `Compressor<N>` and `Decompressor<N>`,
`from_header`, and the wrappers around the C calls. -/

/-- Translated from `struct Config` in `src/tamp/src/lib.rs`. -/
structure Config where
  window_bits : Nat
  literal_bits : Nat
  lazy_matching : Bool
  use_custom_dictionary : Bool
deriving DecidableEq, Repr

/-- Translated from `Config::default` / `Config::new`: 10-bit window,
8-bit literals, lazy matching enabled, no custom dictionary. -/
def Config.new : Config := ⟨10, 8, true, false⟩

/-- Translated from `Config::window_bits`. -/
def Config.windowBits (c : Config) (bits : Nat) : Except Error Config :=
  if ¬(8 ≤ bits ∧ bits ≤ 15) then .error (.InvalidConfig "Window bits must be 8-15")
  else .ok { c with window_bits := bits }

/-- Translated from `Config::literal_bits`. -/
def Config.literalBits (c : Config) (bits : Nat) : Except Error Config :=
  if ¬(5 ≤ bits ∧ bits ≤ 8) then .error (.InvalidConfig "Literal bits must be 5-8")
  else .ok { c with literal_bits := bits }

/-- Translated from `Config::lazy_matching`. -/
def Config.lazyMatching (c : Config) (enabled : Bool) : Config :=
  { c with lazy_matching := enabled }

/-- Translated from `Config::custom_dictionary`. -/
def Config.customDictionary (c : Config) (enabled : Bool) : Config :=
  { c with use_custom_dictionary := enabled }

/-- The C-side `TampConf` bitfield: window, literal, and the custom
dictionary flag.  There is no lazy-matching field. -/
structure CConf where
  window : Nat
  literal : Nat
  use_custom_dictionary : Nat
deriving DecidableEq, Repr

/-- Translated from `Config::to_c_config`: sets window, literal and the
custom-dictionary flag; `lazy_matching` is not transmitted (the source
notes "lazy_matching not available in current bindings"). -/
def Config.toCConfig (c : Config) : CConf :=
  ⟨c.window_bits, c.literal_bits, if c.use_custom_dictionary then 1 else 0⟩

/-- Translated from `Config::window_size`: `1usize << window_bits`. -/
def Config.windowSize (c : Config) : Nat := 1 <<< c.window_bits

theorem Config.windowSize_eq (c : Config) : c.windowSize = 2 ^ c.window_bits := by
  simp [Config.windowSize, Nat.shiftLeft_eq]

/-- The engine parameters carried by a `Config`. -/
def Config.params (c : Config) : Params := ⟨c.window_bits, c.literal_bits⟩

/-- Models `heapless::Vec::<u8, CAP>::resize(len, 0)`, which fails iff the
requested length exceeds the capacity (mapped to `BufferTooSmall` by the
binding). -/
def hlResize (cap len : Nat) : Except Error Unit :=
  if len ≤ cap then .ok () else .error .BufferTooSmall

/-- Models `window[..copy_len].copy_from_slice(&dict[..copy_len])` with
`copy_len = dict.len().min(N)`. -/
def overlayDict (w : Window) (dict : List Nat) (n : Nat) : Window :=
  fun j => if j < min dict.length n then dict.getD j 0 else w j

/-- Modelled from the spec (§6.2): `tamp_initialize_dictionary` fills the
caller's window buffer with the built-in dictionary pattern.  The C source
is not in `src/`; the window size argument does not change the pattern. -/
def tampInitializeDictionary (_n : Nat) : Window := builtinDictW

/-- Modelled from the spec (§4.4 `init`, §7): `tamp_compressor_init`
validates the configuration ranges, zero-initializes the machine state and,
when no custom dictionary is requested, runs the built-in dictionary
initializer on the window.  The C source is not in `src/`. -/
def tampCompressorInit (cc : CConf) (w : Window) : TampRes × MState :=
  if 8 ≤ cc.window ∧ cc.window ≤ 15 ∧ 5 ≤ cc.literal ∧ cc.literal ≤ 8 then
    (.ok, ⟨if cc.use_custom_dictionary = 0 then builtinDictW else w, 0, [], 8, none⟩)
  else (.invalidConf, ⟨w, 0, [], 8, none⟩)

/-- Modelled from the spec (§4.5 `init`, §7): `tamp_decompressor_init`,
symmetric to the compressor's. -/
def tampDecompressorInit (cc : CConf) (w : Window) : TampRes × DState :=
  if 8 ≤ cc.window ∧ cc.window ≤ 15 ∧ 5 ≤ cc.literal ∧ cc.literal ≤ 8 then
    (.ok, ⟨if cc.use_custom_dictionary = 0 then builtinDictW else w, 0, [], 0⟩)
  else (.invalidConf, ⟨w, 0, [], 0⟩)

/-- Modelled from the spec (§4.5 `read_header`, §6.1):
`tamp_decompressor_read_header` parses the one-byte header (4 bits
`window_bits - 8`, 2 bits `literal_bits - 5`, 1 bit custom-dictionary,
1 reserved bit, MSB-first) and reports `inputExhausted` on an empty
slice. -/
def tampDecompressorReadHeader (input : List Nat) : TampRes × CConf × Nat :=
  match input with
  | [] => (.inputExhausted, ⟨0, 0, 0⟩, 0)
  | b :: _ => (.ok, ⟨b / 16 + 8, b / 4 % 4 + 5, b / 2 % 2⟩, 1)

/-- The Rust `Compressor<N>`: window size, engine parameters from the
stored C state, machine state, and the produced-but-unfetched bits (the C
bit accumulator plus the lazily-written header). -/
structure RCompressor where
  n : Nat
  p : Params
  st : MState
  pend : List Bool

/-- Translated from `Compressor::with_dictionary`. -/
def Compressor.withDictionary (N : Nat) (config : Config)
    (dictionary : Option (List Nat)) : Except Error RCompressor :=
  if N ≠ config.windowSize then
    .error (.InvalidConfig "Buffer size N must equal 2^window_bits")
  else
    match hlResize N N with
    | .error e => .error e
    | .ok _ =>
      let window1 : Window :=
        match dictionary with
        | some dict =>
          if config.use_custom_dictionary then overlayDict (fun _ => 0) dict N
          else if dict ≠ [] then overlayDict (tampInitializeDictionary N) dict N
          else tampInitializeDictionary N
        | none => fun _ => 0
      match dictionary, config.use_custom_dictionary with
      | none, true => .error (.InvalidConfig "Custom dictionary enabled but none provided")
      | _, _ =>
        match fromTampRes (tampCompressorInit config.toCConfig window1).1 with
        | .error e => .error e
        | .ok _ =>
          .ok ⟨N, config.params, (tampCompressorInit config.toCConfig window1).2,
            bitsOfNat 8 (headerByte config.params config.use_custom_dictionary)⟩

/-- Translated from `Compressor::new`. -/
def Compressor.new (N : Nat) (config : Config) : Except Error RCompressor :=
  Compressor.withDictionary N config none

/-- The Rust `Decompressor<N>`: window size, the configuration it was
built with, and the machine state. -/
structure RDecompressor where
  n : Nat
  conf : Config
  st : DState

/-- Translated from `Decompressor::with_dictionary`.  Note: unlike the
compressor, it performs no check that a dictionary was supplied when
`use_custom_dictionary` is set. -/
def Decompressor.withDictionary (N : Nat) (config : Config)
    (dictionary : Option (List Nat)) : Except Error RDecompressor :=
  if N ≠ config.windowSize then
    .error (.InvalidConfig "Buffer size N must equal 2^window_bits")
  else
    match hlResize N N with
    | .error e => .error e
    | .ok _ =>
      let window1 : Window :=
        match dictionary with
        | some dict =>
          if config.use_custom_dictionary then overlayDict (fun _ => 0) dict N
          else fun _ => 0
        | none => fun _ => 0
      match fromTampRes (tampDecompressorInit config.toCConfig window1).1 with
      | .error e => .error e
      | .ok _ => .ok ⟨N, config, (tampDecompressorInit config.toCConfig window1).2⟩

/-- Translated from `Decompressor::new`. -/
def Decompressor.new (N : Nat) (config : Config) : Except Error RDecompressor :=
  Decompressor.withDictionary N config none

/-- Translated from `Decompressor::from_header`. -/
def Decompressor.fromHeader (N : Nat) (input : List Nat) :
    Except Error (RDecompressor × Nat) :=
  match fromTampRes (tampDecompressorReadHeader input).1 with
  | .error e => .error e
  | .ok _ =>
    let config : Config :=
      ⟨(tampDecompressorReadHeader input).2.1.window,
       (tampDecompressorReadHeader input).2.1.literal,
       false,
       (tampDecompressorReadHeader input).2.1.use_custom_dictionary != 0⟩
    if N ≠ config.windowSize then
      .error (.InvalidConfig "Buffer size N doesn't match header")
    else
      match Decompressor.new N config with
      | .error e => .error e
      | .ok d => .ok (d, (tampDecompressorReadHeader input).2.2)

/-- Modelled from the spec (§4.5): `tamp_decompressor_decompress_cb` with
unbounded output room decodes all complete tokens, buffers the trailing
bits, counts all supplied bytes as consumed and returns `inputExhausted`.
The decoded bytes (written through the output pointer in C) are returned
explicitly here. -/
def tampDecompressorDecompressCb (p : Params) (st : DState) (input : List Nat) :
    TampRes × Nat × Nat × List Nat × DState :=
  (.inputExhausted, input.length, (decompressChunkM p st input).1.length,
    (decompressChunkM p st input).1, (decompressChunkM p st input).2)

/-- Translated from `Decompressor::decompress_chunk`: `OK`, `OUTPUT_FULL`
and `INPUT_EXHAUSTED` are treated as success and the partial counts are
returned; other codes go through `Error::from_tamp_res`.  The third
component models the bytes written into the caller's output buffer. -/
def Decompressor.decompressChunk (d : RDecompressor) (input : List Nat) :
    Except Error ((Nat × Nat) × List Nat × RDecompressor) :=
  match hres : (tampDecompressorDecompressCb d.conf.params d.st input).1 with
  | .ok | .outputFull | .inputExhausted =>
    .ok (((tampDecompressorDecompressCb d.conf.params d.st input).2.1,
          (tampDecompressorDecompressCb d.conf.params d.st input).2.2.1),
         (tampDecompressorDecompressCb d.conf.params d.st input).2.2.2.1,
         { d with st := (tampDecompressorDecompressCb d.conf.params d.st input).2.2.2.2 })
  | res =>
    match fromTampRes res with
    | .error e => .error e
    | .ok _ =>
      .ok (((tampDecompressorDecompressCb d.conf.params d.st input).2.1,
            (tampDecompressorDecompressCb d.conf.params d.st input).2.2.1),
           (tampDecompressorDecompressCb d.conf.params d.st input).2.2.2.1,
           { d with st := (tampDecompressorDecompressCb d.conf.params d.st input).2.2.2.2 })

/-- Modelled from the spec (§4.4 `compress`): the compress-callback loop of
`tamp_compressor_compress_cb`: sink bytes; when the micro-buffer is full,
poll once, append the produced bits to the pending output bits, write as
many whole bytes as the remaining output capacity allows, and stop with
`OUTPUT_FULL` when a full byte remains unwritable, or with the fatal code
when the poll fails. -/
def ccLoop (p : Params) (st : MState) (pend : List Bool) (input : List Nat) (cap : Nat)
    (consumed written : Nat) : TampRes × Nat × Nat × MState × List Bool :=
  match input with
  | [] => (.ok, consumed, written, st, pend)
  | x :: xs =>
    match st.dead with
    | some _ => (.excessBits, consumed, written, st, pend)
    | none =>
      if st.buf.length = 16 then
        let r := pollOne p st
        match r.2.dead with
        | some _ => (.excessBits, consumed, written, r.2, pend ++ r.1)
        | none =>
          let pend1 := pend ++ r.1
          let fit := min (pend1.length / 8) (cap - written)
          let pend2 := pend1.drop (8 * fit)
          if 8 ≤ pend2.length then
            (.outputFull, consumed, written + fit, r.2, pend2)
          else
            ccLoop p { r.2 with buf := r.2.buf ++ [x] } pend2 xs cap (consumed + 1)
              (written + fit)
      else ccLoop p { st with buf := st.buf ++ [x] } pend xs cap (consumed + 1) written

/-- Translated from `Compressor::compress_chunk`: the C result goes through
`Error::from_tamp_res(result)?`, so on any non-`OK` code — including the
recoverable `OUTPUT_FULL` — the partial counts are discarded and a bare
`Err` is returned. -/
def Compressor.compressChunk (c : RCompressor) (input : List Nat) (cap : Nat) :
    Except Error ((Nat × Nat) × RCompressor) :=
  match fromTampRes (ccLoop c.p c.st c.pend input cap 0 0).1 with
  | .error e => .error e
  | .ok _ =>
    .ok (((ccLoop c.p c.st c.pend input cap 0 0).2.1,
          (ccLoop c.p c.st c.pend input cap 0 0).2.2.1),
         { c with st := (ccLoop c.p c.st c.pend input cap 0 0).2.2.2.1,
                  pend := (ccLoop c.p c.st c.pend input cap 0 0).2.2.2.2 })

/-- Translated from `Compressor::flush` over the modelled C flush: drain
and pad, then write the pending bytes; insufficient capacity or a fatal
code surfaces as a bare `Err` (counts discarded by `?`). -/
def Compressor.flushR (c : RCompressor) (cap : Nat) (writeToken : Bool) :
    Except Error (Nat × RCompressor) :=
  match (flushM c.p c.st writeToken).2.dead with
  | some e => .error e
  | none =>
    if (c.pend ++ (flushM c.p c.st writeToken).1).length / 8 ≤ cap then
      .ok ((c.pend ++ (flushM c.p c.st writeToken).1).length / 8,
        { c with st := (flushM c.p c.st writeToken).2,
                 pend := (c.pend ++ (flushM c.p c.st writeToken).1).drop
                   (8 * ((c.pend ++ (flushM c.p c.st writeToken).1).length / 8)) })
    else .error .OutputFull

/-- One full compression pipeline with ample output room: a compressor
built by `Compressor::new` (built-in dictionary), driven by
`compress_chunk` over the given input chunks, then `flush(write_token)`;
the result is the concatenation of all output bytes. -/
def compressStream (cfg : Config) (chunks : List (List Nat)) (wt : Bool) :
    Except Error (List Nat) :=
  match (compressBitsRun cfg.params cfg.use_custom_dictionary builtinDictW chunks wt).2.dead with
  | some e => .error e
  | none =>
    .ok (bitsToBytes
      (compressBitsRun cfg.params cfg.use_custom_dictionary builtinDictW chunks wt).1)

/-- The byte stream a caller assembles by retrying with output buffers of
the given capacities: each call yields at most `cap` bytes of the remaining
stream. -/
def drainCaps {α : Type} : List Nat → List α → List α
  | [], _ => []
  | c :: cs, s => s.take c ++ drainCaps cs (s.drop c)

theorem drainCaps_eq_self {α : Type} :
    ∀ (caps : List Nat) (s : List α), s.length ≤ caps.sum → drainCaps caps s = s := by
  intro caps
  induction caps with
  | nil =>
    intro s h
    have : s = [] := List.eq_nil_of_length_eq_zero (Nat.le_zero.mp (by simpa using h))
    subst this
    rfl
  | cons c cs ih =>
    intro s h
    rw [drainCaps, ih (s.drop c) (by simp only [List.length_drop]; simp only [List.sum_cons] at h; omega)]
    exact List.take_append_drop c s

/-- Only whole bytes of the emitted bit stream ever reach the caller's
buffers; trailing bits stay in the writer's accumulator. -/
def emittedBytes (bits : List Bool) : List Nat :=
  bitsToBytes (bits.take (8 * (bits.length / 8)))

theorem headerByte_parse (p : Params) (hp : p.valid) (cd : Bool) :
    headerByte p cd / 16 + 8 = p.wb ∧
    headerByte p cd / 4 % 4 + 5 = p.lb ∧
    headerByte p cd / 2 % 2 = (if cd then 1 else 0) := by
  obtain ⟨h1, h2, h3, h4⟩ := hp
  unfold headerByte
  cases cd <;> simp <;> omega

/-- `from_header` applied to a stream starting with the header byte of a
valid configuration succeeds, consuming one byte, and rebuilds the
configuration with `lazy_matching := false`. -/
theorem fromHeader_headerByte (p : Params) (hp : p.valid) (cd : Bool) (rest : List Nat) :
    Decompressor.fromHeader (2 ^ p.wb) (headerByte p cd :: rest) =
      .ok (⟨2 ^ p.wb, ⟨p.wb, p.lb, false, cd⟩,
            ⟨if cd then (fun _ => 0) else builtinDictW, 0, [], 0⟩⟩, 1) := by
  obtain ⟨hw1, hw2, hl1, hl2⟩ := hp
  obtain ⟨hp1, hp2, hp3⟩ := headerByte_parse p ⟨hw1, hw2, hl1, hl2⟩ cd
  rw [Decompressor.fromHeader]
  rw [show (tampDecompressorReadHeader (headerByte p cd :: rest)).1 = .ok from rfl]
  rw [show fromTampRes .ok = .ok () from rfl]
  simp only [tampDecompressorReadHeader]
  rw [hp1, hp2, hp3]
  have hbne : ((if cd then 1 else 0) != 0) = cd := by cases cd <;> rfl
  rw [hbne]
  have hws : (⟨p.wb, p.lb, false, cd⟩ : Config).windowSize = 2 ^ p.wb := by
    rw [Config.windowSize_eq]
  rw [if_neg (by rw [hws]; exact fun h => h rfl)]
  rw [Decompressor.new, Decompressor.withDictionary]
  rw [if_neg (by rw [hws]; exact fun h => h rfl)]
  rw [show hlResize (2 ^ p.wb) (2 ^ p.wb) = .ok () from by rw [hlResize]; simp]
  simp only
  rw [show (⟨p.wb, p.lb, false, cd⟩ : Config).toCConfig
      = ⟨p.wb, p.lb, if cd then 1 else 0⟩ from rfl]
  rw [show tampDecompressorInit ⟨p.wb, p.lb, if cd then 1 else 0⟩ (fun _ => 0)
      = (.ok, ⟨if (if cd then 1 else 0) = 0 then builtinDictW else (fun _ => 0),
               0, [], 0⟩) from by
    rw [tampDecompressorInit, if_pos ⟨hw1, hw2, hl1, hl2⟩]]
  rw [show fromTampRes .ok = .ok () from rfl]
  simp only
  cases cd <;> simp

/-- The full correctness chain for one compressor run: given in-range input
bytes, a `Compressor::new`-style run over any input chunking followed by
`flush` succeeds, its stream starts with the header byte, `from_header`
rebuilds the configuration consuming one byte, and any chunking of the rest
of the stream through `decompress_chunk` reproduces the input exactly. -/
theorem compressStream_decodes (cfg : Config) (hv : cfg.params.valid)
    (hcd : cfg.use_custom_dictionary = false)
    (X : List Nat) (hX : ∀ b ∈ X, b < 2 ^ cfg.literal_bits)
    (chunks : List (List Nat)) (hchunks : chunks.join = X) (wt : Bool) :
    ∃ stream : List Nat,
      compressStream cfg chunks wt = .ok stream ∧
      stream.head? = some (headerByte cfg.params cfg.use_custom_dictionary) ∧
      ∃ rd : RDecompressor,
        Decompressor.fromHeader (2 ^ cfg.window_bits) stream = .ok (rd, 1) ∧
        rd.conf.window_bits = cfg.window_bits ∧
        rd.conf.literal_bits = cfg.literal_bits ∧
        rd.conf.use_custom_dictionary = cfg.use_custom_dictionary ∧
        rd.conf.lazy_matching = false ∧
        ∀ dchunks : List (List Nat), dchunks.join = stream.drop 1 →
          (runDChunksM cfg.params rd.st dchunks).1 = X := by
  obtain ⟨bits, w', pos', henc⟩ :=
    encBody_total cfg.params X.length X le_rfl hX builtinDictW 0
  have hencj : encBody cfg.params builtinDictW 0 chunks.join = .ok (bits, w', pos') := by
    rw [hchunks]; exact henc
  have hrun := compressBitsRun_ok cfg.params hv cfg.use_custom_dictionary builtinDictW
    chunks wt bits w' pos' hencj
  have hhb := headerByte_lt cfg.params hv cfg.use_custom_dictionary
  have halignS : (bits ++ flushTail wt (8 + bits.length)).length % 8 = 0 := by
    have := stream_align wt bits.length
    simp only [List.length_append]
    omega
  refine ⟨bitsToBytes (bitsOfNat 8 (headerByte cfg.params cfg.use_custom_dictionary) ++
    (bits ++ flushTail wt (8 + bits.length))), ?_, ?_, ?_⟩
  · rw [compressStream, hrun]
  · rw [bitsToBytes_cons8 _ hhb]
    rfl
  · rw [bitsToBytes_cons8 _ hhb]
    rw [hcd]
    refine ⟨⟨2 ^ cfg.params.wb, ⟨cfg.params.wb, cfg.params.lb, false, false⟩,
      ⟨builtinDictW, 0, [], 0⟩⟩, ?_, rfl, rfl, rfl, rfl, ?_⟩
    · have := fromHeader_headerByte cfg.params hv false
        (bitsToBytes (bits ++ flushTail wt (8 + bits.length)))
      rw [show cfg.window_bits = cfg.params.wb from rfl]
      simpa using this
    · intro dchunks hdj
      have hgood : DGood cfg.params ⟨builtinDictW, 0, [], 0⟩ := by
        constructor
        · simp
        · exact decMach_nil _ _ _ _
      rw [runDChunks_join cfg.params dchunks _ hgood]
      rw [decompressChunkM]
      simp only [hdj, List.drop_succ_cons, List.drop_zero]
      rw [List.nil_append]
      rw [bytesToBits_bitsToBytes _ halignS]
      have hdec := dec_enc_aux cfg.params hv X.length X le_rfl builtinDictW 0 bits w'
        pos' henc (flushTail wt (8 + bits.length)) 0
      rw [hdec]
      simp only [Nat.zero_add]
      cases wt
      · have hmod : (8 - (8 + bits.length) % 8) % 8 = (8 - bits.length % 8) % 8 := by
          rw [Nat.add_mod_left]
        rw [show flushTail false (8 + bits.length)
            = List.replicate ((8 - bits.length % 8) % 8) true from by
          rw [flushTail, if_neg (by simp), hmod]]
        rw [decMach_padFalse cfg.params w' pos' bits.length]
        simp
      · have hmod : (8 - (8 + bits.length + 5) % 8) % 8
            = (8 - (bits.length + 5) % 8) % 8 := by
          rw [show 8 + bits.length + 5 = 8 + (bits.length + 5) from by omega,
            Nat.add_mod_left]
        rw [show flushTail true (8 + bits.length)
            = markerBits ++ List.replicate ((8 - (bits.length + 5) % 8) % 8) true from by
          rw [flushTail, if_pos rfl, hmod]]
        rw [decMach_padTrue cfg.params w' pos' bits.length]
        simp

/-! ### Claim theorems -/

/-- C9: the `Config` builder methods validate their ranges:
`window_bits(b)` errors iff `b ∉ 8..=15`, `literal_bits(b)` errors iff
`b ∉ 5..=8`; on success only the targeted field changes. -/
theorem claim_c9_builder_validation :
    (∀ (c : Config) (b : Nat),
      (¬(8 ≤ b ∧ b ≤ 15) →
        c.windowBits b = .error (.InvalidConfig "Window bits must be 8-15")) ∧
      ((8 ≤ b ∧ b ≤ 15) → c.windowBits b = .ok { c with window_bits := b })) ∧
    (∀ (c : Config) (b : Nat),
      (¬(5 ≤ b ∧ b ≤ 8) →
        c.literalBits b = .error (.InvalidConfig "Literal bits must be 5-8")) ∧
      ((5 ≤ b ∧ b ≤ 8) → c.literalBits b = .ok { c with literal_bits := b })) := by
  constructor
  · intro c b
    constructor
    · intro h
      rw [Config.windowBits, if_pos h]
    · intro h
      rw [Config.windowBits, if_neg (by simpa using h)]
  · intro c b
    constructor
    · intro h
      rw [Config.literalBits, if_pos h]
    · intro h
      rw [Config.literalBits, if_neg (by simpa using h)]

/-- Witness for C9 at concrete inputs: `window_bits 7` rejects, and
`window_bits 12` / `literal_bits 6` succeed changing only the field. -/
theorem claim_c9_builder_validation_witness :
    Config.new.windowBits 7 = .error (.InvalidConfig "Window bits must be 8-15") ∧
    Config.new.windowBits 12 = .ok { Config.new with window_bits := 12 } ∧
    Config.new.literalBits 6 = .ok { Config.new with literal_bits := 6 } :=
  ⟨(claim_c9_builder_validation.1 Config.new 7).1 (by omega),
   (claim_c9_builder_validation.1 Config.new 12).2 (by omega),
   (claim_c9_builder_validation.2 Config.new 6).2 (by omega)⟩

theorem hlResize_self (N : Nat) : hlResize N N = .ok () := by
  rw [hlResize]; simp

theorem fromTampRes_ne_bts (r : TampRes) :
    fromTampRes r ≠ .error .BufferTooSmall := by
  cases r <;> simp [fromTampRes]

/-- C5 (amended): a `Compressor` built without a dictionary while
`use_custom_dictionary` is set fails with `InvalidConfig`; the
`Decompressor` constructor performs no such check and succeeds whenever the
size and ranges are otherwise fine. -/
theorem claim_c5_amended :
    (∀ (N : Nat) (config : Config), config.use_custom_dictionary = true →
      ∃ s, Compressor.withDictionary N config none = .error (.InvalidConfig s)) ∧
    (∀ (N : Nat) (config : Config), config.use_custom_dictionary = true →
      config.params.valid → N = config.windowSize →
      ∃ d, Decompressor.withDictionary N config none = .ok d) := by
  constructor
  · intro N config hcust
    by_cases hN : N ≠ config.windowSize
    · exact ⟨_, by rw [Compressor.withDictionary, if_pos hN]⟩
    · refine ⟨"Custom dictionary enabled but none provided", ?_⟩
      rw [Compressor.withDictionary, if_neg hN, hlResize_self]
      dsimp only
      rw [hcust]
  · intro N config hcust hval hN
    obtain ⟨h1, h2, h3, h4⟩ := hval
    refine ⟨⟨N, config, ⟨fun _ => 0, 0, [], 0⟩⟩, ?_⟩
    rw [Decompressor.withDictionary, if_neg (by omega), hlResize_self]
    dsimp only
    rw [show tampDecompressorInit config.toCConfig (fun _ => 0)
        = (.ok, ⟨fun _ => 0, 0, [], 0⟩) from by
      rw [tampDecompressorInit, if_pos ⟨h1, h2, h3, h4⟩]
      simp [Config.toCConfig, hcust]]
    rfl

/-- Witness for C5 at a concrete configuration. -/
theorem claim_c5_amended_witness :
    (∃ s, Compressor.withDictionary 1024 ⟨10, 8, true, true⟩ none
      = .error (.InvalidConfig s)) ∧
    (∃ d, Decompressor.withDictionary 1024 ⟨10, 8, true, true⟩ none = .ok d) :=
  ⟨claim_c5_amended.1 1024 ⟨10, 8, true, true⟩ rfl,
   claim_c5_amended.2 1024 ⟨10, 8, true, true⟩ rfl (by decide) (by decide)⟩

/-- C5 counterexample: the claim says the `Decompressor` constructor also
returns `Err(InvalidConfig)` without a dictionary, but it succeeds. -/
theorem claim_c5_counterexample :
    ∃ d, Decompressor.withDictionary 1024 ⟨10, 8, true, true⟩ none = .ok d := by
  exact ⟨_, rfl⟩

/-- C6 (amended): an undersized window buffer makes both constructors fail,
but with `InvalidConfig` (the `N == 2^window_bits` check), not
`BufferTooSmall`; `BufferTooSmall` is unreachable because the internal
`heapless` vector of capacity `N` is resized to exactly `N`. -/
theorem claim_c6_amended :
    (∀ (N : Nat) (config : Config), N < 2 ^ config.window_bits →
      Compressor.withDictionary N config none
        = .error (.InvalidConfig "Buffer size N must equal 2^window_bits") ∧
      Decompressor.withDictionary N config none
        = .error (.InvalidConfig "Buffer size N must equal 2^window_bits")) ∧
    (∀ (N : Nat) (config : Config) (dict : Option (List Nat)),
      Compressor.withDictionary N config dict ≠ .error .BufferTooSmall ∧
      Decompressor.withDictionary N config dict ≠ .error .BufferTooSmall) := by
  constructor
  · intro N config hN
    have hne : N ≠ config.windowSize := by
      rw [Config.windowSize_eq]; omega
    constructor
    · rw [Compressor.withDictionary, if_pos hne]
    · rw [Decompressor.withDictionary, if_pos hne]
  · intro N config dict
    constructor
    · intro h
      rw [Compressor.withDictionary.eq_def, hlResize_self] at h
      split at h
      · exact absurd h (by simp)
      · dsimp only at h
        cases dict with
        | none =>
          cases hc : config.use_custom_dictionary
          · rw [hc] at h
            dsimp only at h
            split at h
            · rename_i e heq
              injection h with h2
              subst h2
              exact fromTampRes_ne_bts _ heq
            · exact absurd h (by simp)
          · rw [hc] at h
            dsimp only at h
            exact absurd h (by simp)
        | some dictList =>
          cases hc : config.use_custom_dictionary
          · rw [hc] at h
            dsimp only at h
            split at h
            · rename_i e heq
              injection h with h2
              subst h2
              exact fromTampRes_ne_bts _ heq
            · exact absurd h (by simp)
          · rw [hc] at h
            dsimp only at h
            split at h
            · rename_i e heq
              injection h with h2
              subst h2
              exact fromTampRes_ne_bts _ heq
            · exact absurd h (by simp)
    · intro h
      rw [Decompressor.withDictionary.eq_def, hlResize_self] at h
      split at h
      · exact absurd h (by simp)
      · dsimp only at h
        split at h
        · rename_i e heq
          injection h with h2
          subst h2
          exact fromTampRes_ne_bts _ heq
        · exact absurd h (by simp)

/-- Witness for C6 at `N = 512`, `window_bits = 10`. -/
theorem claim_c6_amended_witness :
    (Compressor.withDictionary 512 ⟨10, 8, true, false⟩ none
       = .error (.InvalidConfig "Buffer size N must equal 2^window_bits") ∧
     Decompressor.withDictionary 512 ⟨10, 8, true, false⟩ none
       = .error (.InvalidConfig "Buffer size N must equal 2^window_bits")) ∧
    (Compressor.withDictionary 512 ⟨10, 8, true, false⟩ none
       ≠ .error .BufferTooSmall ∧
     Decompressor.withDictionary 512 ⟨10, 8, true, false⟩ none
       ≠ .error .BufferTooSmall) :=
  ⟨claim_c6_amended.1 512 ⟨10, 8, true, false⟩ (by decide),
   claim_c6_amended.2 512 ⟨10, 8, true, false⟩ none⟩

/-- C6 counterexample: an undersized buffer (`N = 512` with
`window_bits = 10`) is rejected with `InvalidConfig`, not the
`BufferTooSmall` the claim promises. -/
theorem claim_c6_counterexample :
    Compressor.withDictionary 512 ⟨10, 8, true, false⟩ none
      = .error (.InvalidConfig "Buffer size N must equal 2^window_bits") := by
  rfl

/-- C7: any `N ≠ 2^window_bits` makes both constructors fail with
`InvalidConfig`, and `from_header` fails with `InvalidConfig` whenever `N`
differs from the header-derived window size. -/
theorem claim_c7_size_mismatch :
    (∀ (N : Nat) (config : Config) (dict : Option (List Nat)),
      N ≠ 2 ^ config.window_bits →
      Compressor.withDictionary N config dict
        = .error (.InvalidConfig "Buffer size N must equal 2^window_bits") ∧
      Decompressor.withDictionary N config dict
        = .error (.InvalidConfig "Buffer size N must equal 2^window_bits")) ∧
    (∀ (N : Nat) (input : List Nat) (cc : CConf) (k : Nat),
      tampDecompressorReadHeader input = (.ok, cc, k) →
      N ≠ 2 ^ cc.window →
      Decompressor.fromHeader N input
        = .error (.InvalidConfig "Buffer size N doesn't match header")) := by
  constructor
  · intro N config dict hN
    have hne : N ≠ config.windowSize := by rw [Config.windowSize_eq]; exact hN
    exact ⟨by rw [Compressor.withDictionary.eq_def, if_pos hne],
           by rw [Decompressor.withDictionary.eq_def, if_pos hne]⟩
  · intro N input cc k hread hN
    rw [Decompressor.fromHeader, hread]
    dsimp only [fromTampRes]
    split
    · rfl
    · rename_i hcond
      exact absurd ((not_not.mp hcond).trans (Config.windowSize_eq _)) hN

/-- Witness for C7: `N = 512` with `window_bits = 10`, and `from_header`
with `N = 256` on a header declaring a 10-bit window. -/
theorem claim_c7_size_mismatch_witness :
    (Compressor.withDictionary 512 ⟨10, 8, true, false⟩ none
       = .error (.InvalidConfig "Buffer size N must equal 2^window_bits") ∧
     Decompressor.withDictionary 512 ⟨10, 8, true, false⟩ none
       = .error (.InvalidConfig "Buffer size N must equal 2^window_bits")) ∧
    Decompressor.fromHeader 256 [32]
      = .error (.InvalidConfig "Buffer size N doesn't match header") :=
  ⟨claim_c7_size_mismatch.1 512 ⟨10, 8, true, false⟩ none (by decide),
   claim_c7_size_mismatch.2 256 [32] ⟨10, 5, 0⟩ 1 rfl (by decide)⟩

/-- C3: header round-trip.  For a valid configuration, `from_header` with
`N = 2^window_bits` applied to a stream beginning with the compressor's
header byte succeeds consuming one byte and rebuilds `window_bits`,
`literal_bits` and `use_custom_dictionary`; moreover every successful
`compressStream` output really starts with that header byte. -/
theorem claim_c3_header_roundtrip :
    ∀ (cfg : Config), cfg.params.valid →
      (∀ rest : List Nat, ∃ rd : RDecompressor,
        Decompressor.fromHeader (2 ^ cfg.window_bits)
          (headerByte cfg.params cfg.use_custom_dictionary :: rest) = .ok (rd, 1) ∧
        rd.conf.window_bits = cfg.window_bits ∧
        rd.conf.literal_bits = cfg.literal_bits ∧
        rd.conf.use_custom_dictionary = cfg.use_custom_dictionary) ∧
      (∀ (chunks : List (List Nat)) (wt : Bool) (stream : List Nat),
        compressStream cfg chunks wt = .ok stream →
        stream.head? = some (headerByte cfg.params cfg.use_custom_dictionary)) := by
  intro cfg hv
  constructor
  · intro rest
    exact ⟨_, fromHeader_headerByte cfg.params hv cfg.use_custom_dictionary rest,
      rfl, rfl, rfl⟩
  · intro chunks wt stream h
    rw [compressStream] at h
    split at h
    · exact absurd h (by simp)
    · injection h with h2
      subst h2
      rw [show (compressBitsRun cfg.params cfg.use_custom_dictionary builtinDictW
            chunks wt).1
          = bitsOfNat 8 (headerByte cfg.params cfg.use_custom_dictionary) ++
            ((runChunksM cfg.params ⟨builtinDictW, 0, [], 8, none⟩ chunks).1 ++
             (flushM cfg.params
               (runChunksM cfg.params ⟨builtinDictW, 0, [], 8, none⟩ chunks).2 wt).1)
          from rfl]
      rw [bitsToBytes_cons8 _ (headerByte_lt cfg.params hv _)]
      rfl

/-- Witness for C3 at the default configuration. -/
theorem claim_c3_header_roundtrip_witness :
    (∀ rest : List Nat, ∃ rd : RDecompressor,
      Decompressor.fromHeader (2 ^ Config.new.window_bits)
        (headerByte Config.new.params Config.new.use_custom_dictionary :: rest)
        = .ok (rd, 1) ∧
      rd.conf.window_bits = Config.new.window_bits ∧
      rd.conf.literal_bits = Config.new.literal_bits ∧
      rd.conf.use_custom_dictionary = Config.new.use_custom_dictionary) ∧
    (∀ (chunks : List (List Nat)) (wt : Bool) (stream : List Nat),
      compressStream Config.new chunks wt = .ok stream →
      stream.head? = some (headerByte Config.new.params
        Config.new.use_custom_dictionary)) :=
  claim_c3_header_roundtrip Config.new (by decide)

theorem rdecompressor_conf (N : Nat) (config : Config) (dict : Option (List Nat))
    (d : RDecompressor) (h : Decompressor.withDictionary N config dict = .ok d) :
    d.conf = config := by
  rw [Decompressor.withDictionary.eq_def, hlResize_self] at h
  split at h
  · exact absurd h (by simp)
  · dsimp only at h
    split at h
    · exact absurd h (by simp)
    · injection h with h2
      subst h2
      rfl

theorem decompWD_lazy_map (N w l : Nat) (z1 z2 u : Bool) (dict : Option (List Nat)) :
    Decompressor.withDictionary N ⟨w, l, z1, u⟩ dict
      = (Decompressor.withDictionary N ⟨w, l, z2, u⟩ dict).map
          (fun d => ⟨d.n, ⟨w, l, z1, u⟩, d.st⟩) := by
  rw [Decompressor.withDictionary.eq_def, Decompressor.withDictionary.eq_def]
  dsimp only [Config.windowSize, Config.toCConfig]
  by_cases hN : N ≠ 1 <<< w
  · rw [if_pos hN, if_pos hN]
    simp [Except.map]
  · rw [if_neg hN, if_neg hN, hlResize_self]
    dsimp only
    split
    · rename_i e heq
      first
      | (rw [heq]; simp [Except.map])
      | simp [Except.map]
    · rename_i v heq
      first
      | (rw [heq]; simp [Except.map])
      | simp [Except.map]

/-- C10: `lazy_matching` never influences observable behaviour: two
configurations differing only in `lazy_matching` give the same C-side
configuration, the same compressor constructor and compressed streams, a
decompressor constructor differing only in the stored `Config` record, and
identical `decompress_chunk` results; moreover `from_header` always
rebuilds a configuration with `lazy_matching = false`. -/
theorem claim_c10_lazy_matching_unused :
    (∀ c1 c2 : Config,
      c1.window_bits = c2.window_bits → c1.literal_bits = c2.literal_bits →
      c1.use_custom_dictionary = c2.use_custom_dictionary →
      c1.toCConfig = c2.toCConfig ∧
      (∀ (N : Nat) (dict : Option (List Nat)),
        Compressor.withDictionary N c1 dict = Compressor.withDictionary N c2 dict) ∧
      (∀ (N : Nat) (dict : Option (List Nat)),
        Decompressor.withDictionary N c1 dict
          = (Decompressor.withDictionary N c2 dict).map
              (fun d => ⟨d.n, c1, d.st⟩)) ∧
      (∀ (n : Nat) (st : DState) (input : List Nat),
        (Decompressor.decompressChunk ⟨n, c1, st⟩ input).map
            (fun r => (r.1, r.2.1, r.2.2.n, r.2.2.st))
          = (Decompressor.decompressChunk ⟨n, c2, st⟩ input).map
            (fun r => (r.1, r.2.1, r.2.2.n, r.2.2.st))) ∧
      (∀ (chunks : List (List Nat)) (wt : Bool),
        compressStream c1 chunks wt = compressStream c2 chunks wt)) ∧
    (∀ (N : Nat) (input : List Nat) (rd : RDecompressor) (k : Nat),
      Decompressor.fromHeader N input = .ok (rd, k) →
      rd.conf.lazy_matching = false) := by
  constructor
  · intro c1 c2 hw hl hu
    cases c1 with
    | mk w1 l1 z1 u1 =>
    cases c2 with
    | mk w2 l2 z2 u2 =>
    dsimp only at hw hl hu
    subst hw; subst hl; subst hu
    exact ⟨rfl, fun N dict => rfl,
      fun N dict => decompWD_lazy_map N w1 l1 z1 z2 u1 dict,
      fun n st input => rfl, fun chunks wt => rfl⟩
  · intro N input rd k h
    rw [Decompressor.fromHeader] at h
    split at h
    · exact absurd h (by simp)
    · dsimp only at h
      split at h
      · exact absurd h (by simp)
      · split at h
        · exact absurd h (by simp)
        · rename_i d heq
          injection h with h2
          injection h2 with hd hk
          subst hd
          rw [rdecompressor_conf _ _ _ _ heq]

/-- Witness for C10: configurations differing only in `lazy_matching`, and
a concrete successful `from_header` call. -/
theorem claim_c10_lazy_matching_unused_witness :
    ((⟨10, 8, true, false⟩ : Config).toCConfig
       = (⟨10, 8, false, false⟩ : Config).toCConfig ∧
     compressStream ⟨10, 8, true, false⟩ [[1, 2]] true
       = compressStream ⟨10, 8, false, false⟩ [[1, 2]] true) ∧
    (⟨256, ⟨8, 5, false, false⟩, ⟨builtinDictW, 0, [], 0⟩⟩ : RDecompressor).conf.lazy_matching
      = false :=
  ⟨⟨(claim_c10_lazy_matching_unused.1 ⟨10, 8, true, false⟩ ⟨10, 8, false, false⟩
       rfl rfl rfl).1,
    (claim_c10_lazy_matching_unused.1 ⟨10, 8, true, false⟩ ⟨10, 8, false, false⟩
       rfl rfl rfl).2.2.2.2 [[1, 2]] true⟩,
   claim_c10_lazy_matching_unused.2 256 [1]
     ⟨256, ⟨8, 5, false, false⟩, ⟨builtinDictW, 0, [], 0⟩⟩ 1 rfl⟩

theorem ccLoop_sink (p : Params) :
    ∀ (input : List Nat) (st : MState) (pend : List Bool) (cap consumed written : Nat),
      st.dead = none → st.buf.length + input.length ≤ 16 →
      ccLoop p st pend input cap consumed written
        = (.ok, consumed + input.length, written,
           ⟨st.w, st.pos, st.buf ++ input, st.bitsOut, none⟩, pend) := by
  intro input
  induction input with
  | nil =>
    intro st pend cap consumed written hdead hlen
    cases st with
    | mk w pos buf bitsOut dead =>
    dsimp only at hdead
    subst hdead
    rw [ccLoop]
    simp
  | cons x xs ih =>
    intro st pend cap consumed written hdead hlen
    cases st with
    | mk w pos buf bitsOut dead =>
    dsimp only at hdead hlen
    subst hdead
    rw [ccLoop]
    dsimp only
    rw [if_neg (by simp only [List.length_cons] at hlen; omega)]
    rw [ih ⟨w, pos, buf ++ [x], bitsOut, none⟩ pend cap (consumed + 1) written rfl
      (by simp only [List.length_append, List.length_cons, List.length_singleton,
            List.length_nil] at hlen ⊢; omega)]
    simp only [Prod.mk.injEq, MState.mk.injEq, List.length_cons, List.append_assoc,
      List.singleton_append, true_and, and_true]
    omega

theorem pollOne_excess (p : Params) (st : MState) (x : Nat) (rest : List Nat)
    (hdead : st.dead = none) (hbuf : st.buf = x :: rest)
    (hnm : ¬ minMatch p ≤ (bestMatch p st.w st.pos ((x :: rest).take 16)).1)
    (hx : 2 ^ p.lb ≤ x) :
    pollOne p st = ([], ⟨st.w, st.pos, st.buf, st.bitsOut, some .ExcessBits⟩) := by
  rw [pollOne, hdead, hbuf]
  dsimp only
  rw [if_neg hnm, if_pos hx]

theorem flushM_dead (p : Params) (st : MState) (wt : Bool) (e : Error)
    (h : st.dead = some e) : flushM p st wt = ([], st) := by
  rw [flushM, h]

theorem flushR_dead (c : RCompressor) (cap : Nat) (wt : Bool) (e : Error)
    (h : (flushM c.p c.st wt).2.dead = some e) :
    Compressor.flushR c cap wt = .error e := by
  rw [Compressor.flushR.eq_def, h]

/-- C1 (amended): the compress-then-decompress round-trip holds for every
valid configuration that uses the built-in dictionary and every input whose
bytes fit in `literal_bits`, for any chunking on either side. -/
theorem claim_c1_roundtrip_amended (cfg : Config) (hv : cfg.params.valid)
    (hcd : cfg.use_custom_dictionary = false)
    (X : List Nat) (hX : ∀ b ∈ X, b < 2 ^ cfg.literal_bits)
    (chunks : List (List Nat)) (hchunks : chunks.join = X) (wt : Bool) :
    ∃ stream : List Nat,
      compressStream cfg chunks wt = .ok stream ∧
      stream.head? = some (headerByte cfg.params cfg.use_custom_dictionary) ∧
      ∃ rd : RDecompressor,
        Decompressor.fromHeader (2 ^ cfg.window_bits) stream = .ok (rd, 1) ∧
        rd.conf.window_bits = cfg.window_bits ∧
        rd.conf.literal_bits = cfg.literal_bits ∧
        rd.conf.use_custom_dictionary = cfg.use_custom_dictionary ∧
        rd.conf.lazy_matching = false ∧
        ∀ dchunks : List (List Nat), dchunks.join = stream.drop 1 →
          (runDChunksM cfg.params rd.st dchunks).1 = X :=
  compressStream_decodes cfg hv hcd X hX chunks hchunks wt

/-- Witness for C1 at an 8-bit-window, 8-bit-literal configuration and the
two-byte input `[104, 105]` split into two chunks. -/
theorem claim_c1_roundtrip_amended_witness :
    ∃ stream : List Nat,
      compressStream ⟨8, 8, true, false⟩ [[104], [105]] false = .ok stream ∧
      stream.head? = some (headerByte ⟨8, 8⟩ false) ∧
      ∃ rd : RDecompressor,
        Decompressor.fromHeader 256 stream = .ok (rd, 1) ∧
        rd.conf.window_bits = 8 ∧
        rd.conf.literal_bits = 8 ∧
        rd.conf.use_custom_dictionary = false ∧
        rd.conf.lazy_matching = false ∧
        ∀ dchunks : List (List Nat), dchunks.join = stream.drop 1 →
          (runDChunksM ⟨8, 8⟩ rd.st dchunks).1 = [104, 105] :=
  claim_c1_roundtrip_amended ⟨8, 8, true, false⟩ (by decide) rfl [104, 105]
    (by decide) [[104], [105]] rfl false

set_option maxRecDepth 1000000 in
/-- C1 counterexample: an input byte equal to `2^literal_bits` makes the
whole pipeline fail with `ExcessBits`, so the unconditional round-trip of
the claim does not hold. -/
theorem claim_c1_counterexample :
    compressStream ⟨8, 5, true, false⟩ [[32]] false = .error .ExcessBits := by
  rfl

/-- C2: with lazy matching disabled the assembled compressed byte stream is
a function of the configuration and the joined input bytes only —
independent of the input chunking and of the output-capacity schedule used
to fetch it. -/
theorem claim_c2_chunking_invariance (cfg : Config)
    (hlazy : cfg.lazy_matching = false)
    (ch1 ch2 : List (List Nat)) (hjoin : ch1.join = ch2.join) (wt : Bool)
    (caps1 caps2 : List Nat)
    (hc1 : (emittedBytes (compressBitsRun cfg.params cfg.use_custom_dictionary
        builtinDictW ch1 wt).1).length ≤ caps1.sum)
    (hc2 : (emittedBytes (compressBitsRun cfg.params cfg.use_custom_dictionary
        builtinDictW ch2 wt).1).length ≤ caps2.sum) :
    drainCaps caps1 (emittedBytes (compressBitsRun cfg.params
        cfg.use_custom_dictionary builtinDictW ch1 wt).1)
      = drainCaps caps2 (emittedBytes (compressBitsRun cfg.params
        cfg.use_custom_dictionary builtinDictW ch2 wt).1) := by
  have hrun : compressBitsRun cfg.params cfg.use_custom_dictionary builtinDictW ch1 wt
      = compressBitsRun cfg.params cfg.use_custom_dictionary builtinDictW ch2 wt := by
    unfold compressBitsRun
    rw [runChunksM_join, runChunksM_join, hjoin]
  rw [drainCaps_eq_self caps1 _ hc1, drainCaps_eq_self caps2 _ hc2, hrun]

theorem bitsToBytes_length (bs : List Bool) :
    (bitsToBytes bs).length = (bs.length + 7) / 8 := by
  generalize hn : bs.length = n
  induction n using Nat.strong_induction_on generalizing bs with
  | _ n ih =>
    cases bs with
    | nil =>
      simp only [List.length_nil] at hn
      subst hn
      rw [bitsToBytes]
      rfl
    | cons b rest =>
      simp only [List.length_cons] at hn
      rw [bitsToBytes, List.length_cons,
        ih (((b :: rest).drop 8).length) (by simp; omega) _ rfl]
      simp only [List.length_drop, List.length_cons]
      omega

theorem emittedBytes_length (bits : List Bool) :
    (emittedBytes bits).length = bits.length / 8 := by
  rw [emittedBytes, bitsToBytes_length, List.length_take]
  omega

set_option maxRecDepth 1000000 in
/-- Witness for C2: the input `[1, 2]` chunked two ways, fetched with
capacity schedules `[4]` and `[2, 2]`. -/
theorem claim_c2_chunking_invariance_witness :
    drainCaps [4] (emittedBytes (compressBitsRun ⟨8, 8⟩ false
        builtinDictW [[1], [2]] false).1)
      = drainCaps [2, 2] (emittedBytes (compressBitsRun ⟨8, 8⟩ false
        builtinDictW [[1, 2]] false).1) :=
  claim_c2_chunking_invariance ⟨8, 8, false, false⟩ rfl [[1], [2]] [[1, 2]] rfl false
    [4] [2, 2] (by rw [emittedBytes_length]; decide)
    (by rw [emittedBytes_length]; decide)

/-- C4 (amended): `decompress_chunk` really does return the partial counts
with `Ok` on the recoverable codes, but `compress_chunk` pipes the C result
through `Error::from_tamp_res(result)?`, so on `OUTPUT_FULL` the counts are
discarded and a bare `Err(OutputFull)` is returned. -/
theorem claim_c4_counts_on_recoverable :
    (∀ (d : RDecompressor) (input : List Nat),
      Decompressor.decompressChunk d input =
        .ok ((input.length, (decompressChunkM d.conf.params d.st input).1.length),
             (decompressChunkM d.conf.params d.st input).1,
             ⟨d.n, d.conf, (decompressChunkM d.conf.params d.st input).2⟩)) ∧
    (∀ (c : RCompressor) (input : List Nat) (cap : Nat),
      (ccLoop c.p c.st c.pend input cap 0 0).1 = .outputFull →
      Compressor.compressChunk c input cap = .error .OutputFull) := by
  constructor
  · intro d input
    rfl
  · intro c input cap h
    rw [Compressor.compressChunk.eq_def, h]
    rfl

set_option maxRecDepth 1000000 in
/-- Witness for C4: a 17-byte compress call into a zero-capacity buffer
stops with output full and `compress_chunk` reports the bare error. -/
theorem claim_c4_counts_on_recoverable_witness :
    Compressor.compressChunk
        ⟨256, ⟨8, 8⟩, ⟨builtinDictW, 0, [], 8, none⟩,
         bitsOfNat 8 (headerByte ⟨8, 8⟩ false)⟩
        (List.replicate 17 81) 0
      = .error .OutputFull :=
  claim_c4_counts_on_recoverable.2
    ⟨256, ⟨8, 8⟩, ⟨builtinDictW, 0, [], 8, none⟩,
     bitsOfNat 8 (headerByte ⟨8, 8⟩ false)⟩
    (List.replicate 17 81) 0 (by rfl)

set_option maxRecDepth 1000000 in
/-- C4 counterexample: a fresh compressor fed 17 bytes with a zero-capacity
output buffer stops with output full, yet `compress_chunk` returns a bare
`Err(OutputFull)` — the partial counts the claim promises are discarded. -/
theorem claim_c4_counterexample :
    ∃ c : RCompressor,
      Compressor.new 256 ⟨8, 8, true, false⟩ = .ok c ∧
      Compressor.compressChunk c (List.replicate 17 81) 0 = .error .OutputFull :=
  ⟨⟨256, ⟨8, 8⟩, ⟨builtinDictW, 0, [], 8, none⟩,
    bitsOfNat 8 (headerByte ⟨8, 8⟩ false)⟩, by rfl, by rfl⟩

/-- C8 (amended): an out-of-range input byte does not fail at the
`compress_chunk` call that merely buffers it (up to 16 bytes are only
sinked, returning `Ok` with full counts); `ExcessBits` arises when the byte
is emitted as a literal during a poll, after which the dead machine emits
nothing further, and `flush` surfaces the stored error. -/
theorem claim_c8_excessbits_localization :
    (∀ (c : RCompressor) (input : List Nat) (cap : Nat),
      c.st.dead = none → c.st.buf.length + input.length ≤ 16 →
      Compressor.compressChunk c input cap
        = .ok ((input.length, 0),
               ⟨c.n, c.p, ⟨c.st.w, c.st.pos, c.st.buf ++ input, c.st.bitsOut, none⟩,
                c.pend⟩)) ∧
    (∀ (p : Params) (st : MState) (x : Nat) (rest : List Nat),
      st.dead = none → st.buf = x :: rest →
      ¬ minMatch p ≤ (bestMatch p st.w st.pos ((x :: rest).take 16)).1 →
      2 ^ p.lb ≤ x →
      pollOne p st = ([], ⟨st.w, st.pos, st.buf, st.bitsOut, some .ExcessBits⟩)) ∧
    (∀ (p : Params) (st : MState) (e : Error) (input : List Nat) (wt : Bool),
      st.dead = some e →
      runBytes p st input = ([], st) ∧ flushM p st wt = ([], st)) ∧
    (∀ (c : RCompressor) (cap : Nat) (wt : Bool) (e : Error),
      (flushM c.p c.st wt).2.dead = some e →
      Compressor.flushR c cap wt = .error e) := by
  refine ⟨?_, ?_, ?_, ?_⟩
  · intro c input cap hdead hlen
    rw [Compressor.compressChunk.eq_def,
      ccLoop_sink c.p input c.st c.pend cap 0 0 hdead hlen]
    dsimp only [fromTampRes]
    simp
  · intro p st x rest h1 h2 h3 h4
    exact pollOne_excess p st x rest h1 h2 h3 h4
  · intro p st e input wt h
    exact ⟨runBytes_dead p e input st h, flushM_dead p st wt e h⟩
  · intro c cap wt e h
    exact flushR_dead c cap wt e h

set_option maxRecDepth 1000000 in
/-- Witness for C8: the out-of-range byte `32` under `literal_bits = 5` —
it sinks with `Ok`, poisons the machine at poll time, a dead machine stays
silent, and `flush` reports `ExcessBits`. -/
theorem claim_c8_excessbits_localization_witness :
    Compressor.compressChunk
        ⟨256, ⟨8, 5⟩, ⟨builtinDictW, 0, [], 8, none⟩,
         bitsOfNat 8 (headerByte ⟨8, 5⟩ false)⟩ [32] 64
      = .ok ((1, 0),
             ⟨256, ⟨8, 5⟩, ⟨builtinDictW, 0, [32], 8, none⟩,
              bitsOfNat 8 (headerByte ⟨8, 5⟩ false)⟩) ∧
    pollOne ⟨8, 5⟩ ⟨builtinDictW, 0, [32], 8, none⟩
      = ([], ⟨builtinDictW, 0, [32], 8, some .ExcessBits⟩) ∧
    (runBytes ⟨8, 5⟩ ⟨builtinDictW, 0, [32], 8, some .ExcessBits⟩ [7]
        = ([], ⟨builtinDictW, 0, [32], 8, some .ExcessBits⟩) ∧
     flushM ⟨8, 5⟩ ⟨builtinDictW, 0, [32], 8, some .ExcessBits⟩ false
        = ([], ⟨builtinDictW, 0, [32], 8, some .ExcessBits⟩)) ∧
    Compressor.flushR ⟨256, ⟨8, 5⟩, ⟨builtinDictW, 0, [32], 8, none⟩, []⟩ 64 false
      = .error .ExcessBits :=
  ⟨claim_c8_excessbits_localization.1
     ⟨256, ⟨8, 5⟩, ⟨builtinDictW, 0, [], 8, none⟩,
      bitsOfNat 8 (headerByte ⟨8, 5⟩ false)⟩ [32] 64 rfl (by decide),
   claim_c8_excessbits_localization.2.1 ⟨8, 5⟩ ⟨builtinDictW, 0, [32], 8, none⟩ 32 []
     rfl rfl (by decide) (by decide),
   claim_c8_excessbits_localization.2.2.1 ⟨8, 5⟩
     ⟨builtinDictW, 0, [32], 8, some .ExcessBits⟩ .ExcessBits [7] false rfl,
   claim_c8_excessbits_localization.2.2.2
     ⟨256, ⟨8, 5⟩, ⟨builtinDictW, 0, [32], 8, none⟩, []⟩ 64 false .ExcessBits
     (by rfl)⟩

set_option maxRecDepth 1000000 in
/-- C8 counterexample: the byte `32` has bits above `literal_bits = 5`, yet
the `compress_chunk` call that receives it returns `Ok((1, 0))` — the
failure the claim requires does not happen at that call. -/
theorem claim_c8_counterexample :
    ∃ c c2 : RCompressor,
      Compressor.new 256 ⟨8, 5, true, false⟩ = .ok c ∧
      Compressor.compressChunk c [32] 64 = .ok ((1, 0), c2) :=
  ⟨⟨256, ⟨8, 5⟩, ⟨builtinDictW, 0, [], 8, none⟩,
    bitsOfNat 8 (headerByte ⟨8, 5⟩ false)⟩,
   ⟨256, ⟨8, 5⟩, ⟨builtinDictW, 0, [32], 8, none⟩,
    bitsOfNat 8 (headerByte ⟨8, 5⟩ false)⟩, by rfl, by rfl⟩

end Tamp
